import Mathlib

/-!
# Verification of pacman-repo-tools core algorithms

A shallow embedding, in Lean 4, of the core algorithms of the
`pacman-repo-tools` repository:

* the pacman package version comparison
  (`compare_version_string`, `compare_package_version` and the
  `split_parts` / `consume_epoch` / `consume_pkgrel` helpers from
  `src/version.rs` and `src/version/compare.rs` / `src/version/parse.rs`);
* dependency token parsing (`parse_depends` / `parse_constraint`
  from `src/parse.rs`);
* the dependency-closure resolver of `src/bin/download-packages.rs`
  (`index_providers`, `DependencyResolver::resolve`, `add_package`,
  `resolve_target`, `pop_first`).

Modelling conventions:

* Rust `&str` values are modelled as `String` / `List Char`.  For ASCII
  strings (the character class of package names and version strings) the
  Rust byte-wise ordering coincides with the `Char`-wise ordering used
  here.  The Rust character classifiers `char::is_digit(10)`,
  `char::is_alphabetic` and `char::is_alphanumeric` are modelled on the
  ASCII fragment (`Char.isDigit`, `Char.isAlpha`, `Char.isAlphanum`).
* The machine-integer parse `run.parse::<i32>().unwrap()` in
  `compare_version_string` and `consume_epoch` can panic (integer
  overflow for digit runs whose value exceeds `i32::MAX`); a panic is
  modelled as `none`.  Loops are written with an explicit fuel
  parameter; fuel exhaustion also yields `none`, and sufficiency of the
  chosen fuel is proved where needed.
* `BTreeSet<&str>` values are modelled as strictly sorted `List String`
  values maintained by `insertSorted`; `iter().next()` (the minimum) is
  the head of the sorted list.  The `BTreeMap<&str, (&Repository,
  &DatabasePackage)>` package index built by `index_packages_by_name`
  is modelled as a `List DatabasePackage` looked up with
  `List.find?` (first package with the name wins, exactly the
  first-repository-wins policy of the map); theorems that depend on the
  map's key uniqueness take a `Nodup` hypothesis on the package names.
* Fields of `DatabasePackage` that the resolver never consults
  (filename, base, description, sizes, checksums, url, licenses, arch,
  build date, packager, conflicts, optdepends, makedepends,
  checkdepends, …) are omitted from the record.
-/

namespace Pacman

/-! ## Character classes (ASCII fragment of the Rust classifiers) -/

/-- Model of Rust `char::is_digit(10)` (ASCII digits `0-9`). -/
def isDigitChar (c : Char) : Bool := c.isDigit

/-- Model of Rust `char::is_alphabetic` on the ASCII fragment. -/
def isAlphaChar (c : Char) : Bool := c.isAlpha

/-- Model of Rust `char::is_alphanumeric` on the ASCII fragment. -/
def isAlnumChar (c : Char) : Bool := c.isAlphanum

/-! ## Numeric runs -/

/-- Numeric value of an ASCII digit run. -/
def digitRunVal (l : List Char) : Nat :=
  l.foldl (fun n c => 10 * n + (c.toNat - 48)) 0

/-- Model of `if run.is_empty() { -1 } else { run.parse::<i32>().unwrap() }`
in `compare_version_string`.  `none` models the `unwrap` panic when the
value of the digit run overflows `i32` (exceeds `2147483647`). -/
def parseNum (l : List Char) : Option Int :=
  if l.isEmpty then some (-1)
  else if digitRunVal l ≤ 2147483647 then some (digitRunVal l) else none

/-- Whether ten or more consecutive ASCII digits occur somewhere in the
list.  Any maximal digit run of a string without this property has value
below `10^9 ≤ i32::MAX`, so the `parse::<i32>().unwrap()` calls of the
comparison functions cannot panic on such strings. -/
def hasLongRun : List Char → Bool
  | [] => false
  | c :: rest =>
    (((c :: rest).take 10).all isDigitChar && ((c :: rest).take 10).length == 10)
      || hasLongRun rest

/-! ## Elementary comparators (Rust `Ord` on `bool`, `&str`, `i32`) -/

/-- Rust `bool` ordering: `false < true`. -/
def boolCompare (a b : Bool) : Ordering :=
  if a = b then .eq else if a then .gt else .lt

/-- Rust `&str` lexicographic ordering (byte-wise; char-wise on ASCII). -/
def chListCompare : List Char → List Char → Ordering
  | [], [] => .eq
  | [], _ :: _ => .lt
  | _ :: _, [] => .gt
  | a :: as, b :: bs =>
    if a < b then .lt else if b < a then .gt else chListCompare as bs

/-- Rust `(a_alpha.is_empty(), a_alpha).cmp(&(b_alpha.is_empty(), b_alpha))`:
an absent letter-run is newer (greater) than any present letter-run. -/
def alphaCompare (x y : List Char) : Ordering :=
  match boolCompare x.isEmpty y.isEmpty with
  | .eq => chListCompare x y
  | o => o

/-- Rust `i32::cmp`. -/
def intCompare (a b : Int) : Ordering :=
  if a < b then .lt else if b < a then .gt else .eq

/-! ## `compare_version_string` (src/version.rs lines 75-116)

The Rust function consumes its two arguments with
`consume_front_while`; the consumed prefixes and the rests are the
`takeWhile` / `dropWhile` spans below. -/

/-- `a_num` of the inner loop: the maximal leading digit run. -/
def numToken (x : List Char) : List Char := x.takeWhile isDigitChar

/-- What remains of an alphanumeric run after its leading digit run. -/
def afterNum (x : List Char) : List Char := x.dropWhile isDigitChar

/-- `a_alpha` of the inner loop: the maximal letter run after the digit run. -/
def alphaToken (x : List Char) : List Char :=
  (afterNum x).takeWhile isAlphaChar

/-- What remains of an alphanumeric run after one `(digits, letters)` token. -/
def afterTok (x : List Char) : List Char :=
  (afterNum x).dropWhile isAlphaChar

/-- The inner loop of `compare_version_string`: compare two alphanumeric
runs token by token (digit run numerically with `-1` for absence, then
letter run with absence greatest).  The first argument is fuel; `none`
models a panic (or fuel exhaustion, which provably does not occur at the
fuel used). -/
def cmpAlnum : Nat → List Char → List Char → Option Ordering
  | 0, _, _ => none
  | fuel + 1, x, y =>
    if x.isEmpty && y.isEmpty then some .eq
    else
      match parseNum (numToken x), parseNum (numToken y) with
      | some xv, some yv =>
        match intCompare xv yv with
        | .lt => some .lt
        | .gt => some .gt
        | .eq =>
          match alphaCompare (alphaToken x) (alphaToken y) with
          | .lt => some .lt
          | .gt => some .gt
          | .eq => cmpAlnum fuel (afterTok x) (afterTok y)
      | _, _ => none

/-- `a_alnum`: the maximal leading alphanumeric run of the outer loop. -/
def alnumSpan (a : List Char) : List Char := a.takeWhile isAlnumChar

/-- What remains after the leading alphanumeric run. -/
def afterAlnum (a : List Char) : List Char := a.dropWhile isAlnumChar

/-- `a_sep`: the maximal separator (non-alphanumeric) run that follows. -/
def sepSpan (a : List Char) : List Char :=
  (afterAlnum a).takeWhile (fun c => !isAlnumChar c)

/-- What remains after one alphanumeric run and one separator run. -/
def afterSep (a : List Char) : List Char :=
  (afterAlnum a).dropWhile (fun c => !isAlnumChar c)

/-- The outer loop of `compare_version_string`: alternately compare one
alphanumeric run (via the inner loop) and one separator run (presence
beats absence) until both strings are exhausted. -/
def cmpVersionChars : Nat → List Char → List Char → Option Ordering
  | 0, _, _ => none
  | fuel + 1, a, b =>
    if a.isEmpty && b.isEmpty then some .eq
    else
      match cmpAlnum ((alnumSpan a).length + (alnumSpan b).length + 1)
          (alnumSpan a) (alnumSpan b) with
      | none => none
      | some .lt => some .lt
      | some .gt => some .gt
      | some .eq =>
        match boolCompare (!(sepSpan a).isEmpty) (!(sepSpan b).isEmpty) with
        | .lt => some .lt
        | .gt => some .gt
        | .eq => cmpVersionChars fuel (afterSep a) (afterSep b)

/-- `compare_version_string` (src/version.rs line 75, identical code at
src/version/compare.rs line 7).  `none` models a panic of the Rust
function (digit run overflowing `i32`). -/
def compare_version_string (a b : String) : Option Ordering :=
  cmpVersionChars (a.length + b.length + 1) a.data b.data

/-! ## `split_parts` and `compare_package_version` (src/version.rs, src/version/parse.rs) -/

/-- `consume_epoch` (src/version.rs line 45): an optional leading
`<digits>:` prefix.  Returns `none` for the `parse::<i32>().unwrap()`
panic on an epoch overflowing `i32`; otherwise
`some (epoch?, remainder)`. -/
def consume_epoch (v : List Char) : Option (Option Int × List Char) :=
  let digits := v.takeWhile isDigitChar
  match v.dropWhile isDigitChar with
  | c :: tail =>
    if c = ':' then
      if digits.isEmpty then some (some 0, tail)
      else if digitRunVal digits ≤ 2147483647 then
        some (some (digitRunVal digits), tail)
      else none
    else some (none, v)
  | [] => some (none, v)

/-- `consume_pkgrel` (src/version.rs line 56): split at the last `-`
(`rpartition`), yielding `(rest, pkgrel)`. -/
def consume_pkgrel (v : List Char) : Option (List Char × List Char) :=
  match v.reverse.dropWhile (fun c => c != '-') with
  | c :: restRev =>
    if c = '-' then
      some (restRev.reverse, (v.reverse.takeWhile (fun c => c != '-')).reverse)
    else none
  | [] => none

/-- `VersionParts` (src/version.rs line 39). -/
structure VersionParts where
  epoch : Int
  pkgver : List Char
  pkgrel : Option (List Char)
deriving DecidableEq

/-- `split_parts` (src/version.rs line 63): epoch (default 0), then
pkgrel (optional, split from the right at `-`), rest is pkgver.
`none` models the epoch-parse panic. -/
def split_parts (version : List Char) : Option VersionParts :=
  match consume_epoch version with
  | none => none
  | some (epochOpt, v1) =>
    match consume_pkgrel v1 with
    | some (rest, rel) => some ⟨epochOpt.getD 0, rest, some rel⟩
    | none => some ⟨epochOpt.getD 0, v1, none⟩

/-- The derived lexicographic `Ord` of `VersionParts` (src/version.rs
line 38): epoch numerically, then pkgver via `compare_version_string`,
then pkgrel (`None < Some`, both present via `compare_version_string`). -/
def cmpVersionParts (x y : VersionParts) : Option Ordering :=
  match intCompare x.epoch y.epoch with
  | .lt => some .lt
  | .gt => some .gt
  | .eq =>
    match cmpVersionChars (x.pkgver.length + y.pkgver.length + 1) x.pkgver y.pkgver with
    | none => none
    | some .lt => some .lt
    | some .gt => some .gt
    | some .eq =>
      match x.pkgrel, y.pkgrel with
      | none, none => some .eq
      | none, some _ => some .lt
      | some _, none => some .gt
      | some ra, some rb => cmpVersionChars (ra.length + rb.length + 1) ra rb

/-- `compare_package_version` (src/version.rs line 71):
`split_parts(a).cmp(&split_parts(b))`.  `none` models a panic. -/
def compare_package_version (a b : String) : Option Ordering :=
  match split_parts a.data, split_parts b.data with
  | some x, some y => cmpVersionParts x y
  | _, _ => none

/-! ## Dependency model and token parsing (src/parse.rs, src/package.rs, src/db/mod.rs) -/

/-- `Version` (src/version/types.rs line 8): epoch, pkgver, optional pkgrel. -/
structure Version where
  epoch : Int
  pkgver : String
  pkgrel : Option String
deriving DecidableEq

/-- `Constraint` (src/package.rs line 29). -/
inductive Constraint where
  | equal
  | greater
  | greaterEqual
  | less
  | lessEqual
deriving DecidableEq

/-- `VersionConstraint` (src/package.rs line 44). -/
structure VersionConstraint where
  version : Version
  constraint : Constraint
deriving DecidableEq

/-- Modelled from the spec: the permissive inherent `Version::from_str`
called by `parse_depends` (src/parse.rs line 59) is not among the
sources under `src/` (only the strict, fallible `FromStr` instances of
src/version/types.rs are).  Per the spec (§4.1, §4.2) it never fails and
splits its input into `(epoch, pkgver, pkgrel?)` exactly like
`split_parts`: an optional leading `<digits>:` prefix is the epoch
(absent or malformed ⇒ 0, with a malformed `:` not consumed), an
optional trailing `-<pkgrel>` suffix is split from the right, and the
rest is the pkgver.  The epoch digits are parsed as an unbounded
integer here. -/
def Version.from_str (input : String) : Version :=
  let v := input.data
  let digits := v.takeWhile isDigitChar
  let (epoch, v1) : Int × List Char :=
    match v.dropWhile isDigitChar with
    | c :: tail =>
      if c = ':' then (if digits.isEmpty then 0 else (digitRunVal digits : Int), tail)
      else (0, v)
    | [] => (0, v)
  match consume_pkgrel v1 with
  | some (rest, rel) => ⟨epoch, String.mk rest, some (String.mk rel)⟩
  | none => ⟨epoch, String.mk v1, none⟩

/-- `is_constraint_char` (src/parse.rs line 69). -/
def is_constraint_char (c : Char) : Bool := c == '>' || c == '<' || c == '='

/-- `blob.find(is_constraint_char)` of src/parse.rs line 53, returning the
part before the first constraint character and the part from it on. -/
def findConstraintSplit : List Char → Option (List Char × List Char)
  | [] => none
  | c :: rest =>
    if is_constraint_char c then some ([], c :: rest)
    else
      match findConstraintSplit rest with
      | some (pre, post) => some (c :: pre, post)
      | none => none

/-- `parse_constraint` (src/parse.rs line 74): try the operator prefixes
`>=`, `<=`, `>`, `<`, `==`, `=` in that priority order. -/
def parse_constraint : List Char → Option (Constraint × List Char)
  | '>' :: '=' :: rest => some (.greaterEqual, rest)
  | '<' :: '=' :: rest => some (.lessEqual, rest)
  | '>' :: rest => some (.greater, rest)
  | '<' :: rest => some (.less, rest)
  | '=' :: '=' :: rest => some (.equal, rest)
  | '=' :: rest => some (.equal, rest)
  | _ => none

/-- `parse_depends` (src/parse.rs line 52): split at the first constraint
character; the part before it is the name, the rest is parsed as an
operator plus version.  The inner `none` branch models the
`parse_constraint(..).unwrap()`; it is unreachable because the split
point is a constraint character. -/
def parse_depends (blob : String) : String × Option VersionConstraint :=
  match findConstraintSplit blob.data with
  | some (name, post) =>
    match parse_constraint post with
    | some (c, ver) => (String.mk name, some ⟨Version.from_str (String.mk ver), c⟩)
    | none => (String.mk name, none)
  | none => (blob, none)

/-! ## The dependency resolver (src/bin/download-packages.rs) -/

/-- `Provides` of the dependency model (src/db/mod.rs uses it for the
`provides` entries of a database package). -/
structure Provides where
  name : String
  version : Option Version
deriving DecidableEq

/-- `Dependency` of the dependency model (a name plus an optional version
constraint, as produced by `parse_depends`). -/
structure Dependency where
  name : String
  version : Option VersionConstraint
deriving DecidableEq

/-- `DatabasePackage` (src/db/mod.rs line 19), restricted to the fields
the resolver consults; the remaining metadata fields are omitted. -/
structure DatabasePackage where
  name : String
  depends : List Dependency
  provides : List Provides
deriving DecidableEq

/-- The two error exits of the resolver
(src/bin/download-packages.rs lines 309 and 313): the Rust code returns
`Err(())` after printing `"no provider found for target: {t}"`
respectively `"no such package: {q}"`; the printed name is carried here
as the error payload. -/
inductive ResolveError where
  | noProviderFound (target : String)
  | noSuchPackage (name : String)
deriving DecidableEq

/-- Decidable equality for `Except`, so that concrete resolver runs can
be checked by `decide`. -/
instance {ε α : Type} [DecidableEq ε] [DecidableEq α] : DecidableEq (Except ε α) := fun x y =>
  match x, y with
  | .ok a, .ok b => decidable_of_iff (a = b) (by simp)
  | .error a, .error b => decidable_of_iff (a = b) (by simp)
  | .ok _, .error _ => .isFalse (by simp)
  | .error _, .ok _ => .isFalse (by simp)

/-- The `Ord` of Rust `&str` values (byte-wise lexicographic;
char-wise on ASCII), used by `BTreeSet<&str>` / `BTreeMap<&str, _>`. -/
def strCompare (x y : String) : Ordering := chListCompare x.data y.data

/-- The strict order underlying `strCompare` (the `BTreeSet<&str>`
iteration order). -/
def strLt (x y : String) : Prop := strCompare x y = Ordering.lt

/-- Insertion into a `BTreeSet<&str>`, modelled as insertion into a
strictly sorted list (no-op when the element is present). -/
def insertSorted (x : String) : List String → List String
  | [] => [x]
  | y :: ys =>
    match strCompare x y with
    | .lt => x :: y :: ys
    | .eq => y :: ys
    | .gt => y :: insertSorted x ys

/-- `self.packages.get(name)`: lookup in the name index built by
`index_packages_by_name` (first package with the name wins, like the
first-repository-wins policy of the map). -/
def getPackage (pkgs : List DatabasePackage) (name : String) : Option DatabasePackage :=
  pkgs.find? (fun p => p.name == name)

/-- Whether a package provides a target: its own name matches, or some
entry of its `provides` list does (src/bin/download-packages.rs
lines 216-220). -/
def providesTarget (p : DatabasePackage) (target : String) : Bool :=
  p.name == target || p.provides.any (fun pr => pr.name == target)

/-- The entry `index_providers(packages)[target]`
(src/bin/download-packages.rs line 214): the set of names of packages
that provide `target`, as a sorted list ( `[]` for an absent entry). -/
def providersOf (pkgs : List DatabasePackage) (target : String) : List String :=
  pkgs.foldl
    (fun acc p => if providesTarget p target then insertSorted p.name acc else acc)
    []

/-- The mutable state of `DependencyResolver`
(src/bin/download-packages.rs lines 229-230). -/
structure ResolverState where
  selected_packages : List String
  provided_targets : List String
deriving DecidableEq

/-- `DependencyResolver::add_package` (src/bin/download-packages.rs
line 290): add the package name to `selected_packages`, and the name
plus every `provides` name to `provided_targets`. -/
def add_package (st : ResolverState) (p : DatabasePackage) : ResolverState :=
  { selected_packages := insertSorted p.name st.selected_packages
    provided_targets :=
      (p.provides.map Provides.name).foldl (fun acc n => insertSorted n acc)
        (insertSorted p.name st.provided_targets) }

/-- `DependencyResolver::resolve_target` (src/bin/download-packages.rs
line 301): a concrete package is used directly; otherwise the first
(minimal) element of the provider set is looked up in the name index. -/
def resolve_target (pkgs : List DatabasePackage) (target : String) :
    Except ResolveError DatabasePackage :=
  match getPackage pkgs target with
  | some p => .ok p
  | none =>
    match providersOf pkgs target with
    | [] => .error (.noProviderFound target)
    | q :: _ =>
      match getPackage pkgs q with
      | some p => .ok p
      | none => .error (.noSuchPackage q)

/-- The enqueueing of the dependencies of a selected package
(src/bin/download-packages.rs lines 279-283): every `depends` name not
already in `provided_targets` is inserted into the queue. -/
def enqueueDepends (st : ResolverState) (deps : List Dependency)
    (queue : List String) : List String :=
  deps.foldl
    (fun q d => if d.name ∈ st.provided_targets then q else insertSorted d.name q)
    queue

/-- The drain loop of `DependencyResolver::resolve`
(src/bin/download-packages.rs lines 269-284).  `pop_first` pops the
minimal element of the `BTreeSet` queue, i.e. the head of the sorted
list.  The first argument is fuel; `none` models non-termination, and
the fuel used by `resolve` is proved sufficient. -/
def resolveLoop (pkgs : List DatabasePackage) :
    Nat → List String → ResolverState → Option (Except ResolveError (List String))
  | 0, _, _ => none
  | fuel + 1, queue, st =>
    match queue with
    | [] => some (.ok st.selected_packages)
    | target :: rest =>
      if target ∈ st.provided_targets then
        resolveLoop pkgs fuel rest st
      else
        match resolve_target pkgs target with
        | .error e => some (.error e)
        | .ok p =>
          resolveLoop pkgs fuel (enqueueDepends (add_package st p) p.depends rest)
            (add_package st p)

/-- The first phase of `DependencyResolver::resolve`
(src/bin/download-packages.rs lines 253-266): select every explicitly
requested concrete package immediately and enqueue all its dependency
names; enqueue any other requested target as a pending (possibly
virtual) target.  Returns the initial queue and state. -/
def initStep (pkgs : List DatabasePackage) (acc : List String × ResolverState)
    (target : String) : List String × ResolverState :=
  match getPackage pkgs target with
  | some p =>
    (p.depends.foldl (fun q d => insertSorted d.name q) acc.1, add_package acc.2 p)
  | none => (insertSorted target acc.1, acc.2)

def initResolve (pkgs : List DatabasePackage) (targets : List String) :
    List String × ResolverState :=
  targets.foldl (initStep pkgs) ([], ⟨[], []⟩)

/-- The set of names that can ever enter `provided_targets`: every
package name and every `provides` name of the index. -/
def provUniverse (pkgs : List DatabasePackage) : List String :=
  pkgs.foldl
    (fun acc p =>
      (p.provides.map Provides.name).foldl (fun a n => insertSorted n a)
        (insertSorted p.name acc))
    []

/-- Total number of `depends` entries of the index; no drain step can
enqueue more than this many targets. -/
def totalDepends (pkgs : List DatabasePackage) : Nat :=
  pkgs.foldl (fun n p => n + p.depends.length) 0

/-- Fuel that provably suffices for the drain loop. -/
def resolveFuel (pkgs : List DatabasePackage) (queue : List String) : Nat :=
  (provUniverse pkgs).length * (totalDepends pkgs + 1) + queue.length + 1

/-- The number of elements of the provide-name universe not yet in
`provided_targets`: the decreasing part of the drain-loop measure. -/
def unprovidedCount (pkgs : List DatabasePackage) (st : ResolverState) : Nat :=
  ((provUniverse pkgs).filter (fun n => !decide (n ∈ st.provided_targets))).length

/-- `DependencyResolver::resolve` (src/bin/download-packages.rs
line 250): phase 1 over the requested targets, then the drain loop.
The result is the sorted set of selected package names, an error, or
`none` for non-termination (proved not to occur for a well-formed
index). -/
def resolve (pkgs : List DatabasePackage) (targets : List String) :
    Option (Except ResolveError (List String)) :=
  let init := initResolve pkgs targets
  resolveLoop pkgs (resolveFuel pkgs init.1) init.1 init.2

/-! ### A drain-order-generalised resolver

`resolve` always pops the lexicographically smallest pending target
(the `BTreeSet` minimum).  To reason about other drain orders, the
variant below keeps the queue ordered by an arbitrary priority `rank`
(ties broken lexicographically) and still pops the head, so
`rank := fun _ => 0` is exactly the original drain order.  Only the
queue order changes; selection and bookkeeping are identical. -/

/-- Queue insertion ordered by `(rank x, x)`. -/
def insertRanked (rank : String → Nat) (x : String) : List String → List String
  | [] => [x]
  | y :: ys =>
    if rank x < rank y then x :: y :: ys
    else if rank y < rank x then y :: insertRanked rank x ys
    else
      match strCompare x y with
      | .lt => x :: y :: ys
      | .eq => y :: ys
      | .gt => y :: insertRanked rank x ys

/-- `enqueueDepends` with a ranked queue. -/
def enqueueDependsBy (rank : String → Nat) (st : ResolverState)
    (deps : List Dependency) (queue : List String) : List String :=
  deps.foldl
    (fun q d => if d.name ∈ st.provided_targets then q else insertRanked rank d.name q)
    queue

/-- The drain loop with a ranked queue. -/
def resolveLoopBy (rank : String → Nat) (pkgs : List DatabasePackage) :
    Nat → List String → ResolverState → Option (Except ResolveError (List String))
  | 0, _, _ => none
  | fuel + 1, queue, st =>
    match queue with
    | [] => some (.ok st.selected_packages)
    | target :: rest =>
      if target ∈ st.provided_targets then
        resolveLoopBy rank pkgs fuel rest st
      else
        match resolve_target pkgs target with
        | .error e => some (.error e)
        | .ok p =>
          resolveLoopBy rank pkgs fuel
            (enqueueDependsBy rank (add_package st p) p.depends rest)
            (add_package st p)

/-- Phase 1 with a ranked queue. -/
def initResolveBy (rank : String → Nat) (pkgs : List DatabasePackage)
    (targets : List String) : List String × ResolverState :=
  targets.foldl
    (fun acc target =>
      match getPackage pkgs target with
      | some p =>
        (p.depends.foldl (fun q d => insertRanked rank d.name q) acc.1, add_package acc.2 p)
      | none => (insertRanked rank target acc.1, acc.2))
    ([], ⟨[], []⟩)

/-- `resolve` with the drain order given by `rank`. -/
def resolveBy (rank : String → Nat) (pkgs : List DatabasePackage)
    (targets : List String) : Option (Except ResolveError (List String)) :=
  let init := initResolveBy rank pkgs targets
  resolveLoopBy rank pkgs (resolveFuel pkgs init.1) init.1 init.2

/-! # Lemmas

## Elementary comparator laws -/

theorem boolCompare_swap (a b : Bool) : boolCompare b a = (boolCompare a b).swap := by
  cases a <;> cases b <;> rfl

theorem boolCompare_eq_iff {a b : Bool} : boolCompare a b = .eq ↔ a = b := by
  cases a <;> cases b <;> simp [boolCompare]

theorem intCompare_swap (a b : Int) : intCompare b a = (intCompare a b).swap := by
  rcases lt_trichotomy a b with h | h | h
  · have h' : ¬b < a := by omega
    simp [intCompare, h, h', Ordering.swap]
  · simp [intCompare, h, lt_irrefl, Ordering.swap]
  · have h' : ¬a < b := by omega
    simp [intCompare, h, h', Ordering.swap]

theorem intCompare_eq_iff {a b : Int} : intCompare a b = .eq ↔ a = b := by
  unfold intCompare
  split_ifs with h1 h2 <;> simp <;> omega

theorem intCompare_lt_iff {a b : Int} : intCompare a b = .lt ↔ a < b := by
  unfold intCompare
  split_ifs with h1 h2 <;> simp <;> omega

theorem chListCompare_swap : ∀ x y : List Char, chListCompare y x = (chListCompare x y).swap
  | [], [] => rfl
  | [], _ :: _ => rfl
  | _ :: _, [] => rfl
  | a :: as, b :: bs => by
    rcases lt_trichotomy a b with h | h | h
    · have h' : ¬b < a := not_lt_of_gt h
      simp [chListCompare, h, h', Ordering.swap]
    · subst h
      simp [chListCompare, lt_irrefl, chListCompare_swap as bs]
    · have h' : ¬a < b := not_lt_of_gt h
      simp [chListCompare, h, h', Ordering.swap]

theorem chListCompare_eq_iff : ∀ {x y : List Char}, chListCompare x y = .eq ↔ x = y
  | [], [] => by simp [chListCompare]
  | [], _ :: _ => by simp [chListCompare]
  | _ :: _, [] => by simp [chListCompare]
  | a :: as, b :: bs => by
    unfold chListCompare
    split_ifs with h1 h2
    · constructor
      · intro hc
        cases hc
      · intro hc
        injection hc with hab _
        exact absurd hab (ne_of_lt h1)
    · constructor
      · intro hc
        cases hc
      · intro hc
        injection hc with hab _
        exact absurd hab (ne_of_gt h2)
    · have hab : a = b := le_antisymm (not_lt.mp h2) (not_lt.mp h1)
      subst hab
      simp [chListCompare_eq_iff (x := as) (y := bs)]

theorem chListCompare_trans_lt :
    ∀ {x y z : List Char}, chListCompare x y = .lt → chListCompare y z = .lt →
      chListCompare x z = .lt
  | [], [], _, h1, _ => by simp [chListCompare] at h1
  | [], _ :: _, [], _, h2 => by simp [chListCompare] at h2
  | [], _ :: _, _ :: _, _, _ => by simp [chListCompare]
  | _ :: _, [], _, h1, _ => by simp [chListCompare] at h1
  | _ :: _, _ :: _, [], _, h2 => by simp [chListCompare] at h2
  | a :: as, b :: bs, c :: cs, h1, h2 => by
    unfold chListCompare at h1 h2 ⊢
    rcases lt_trichotomy a b with hab | hab | hab
    · rcases lt_trichotomy b c with hbc | hbc | hbc
      · have hac : a < c := lt_trans hab hbc
        simp [hac]
      · subst hbc
        simp [hab]
      · rw [if_neg (not_lt_of_gt hbc), if_pos hbc] at h2
        cases h2
    · subst hab
      rw [if_neg (lt_irrefl a), if_neg (lt_irrefl a)] at h1
      rcases lt_trichotomy a c with hac | hac | hac
      · simp [hac]
      · subst hac
        rw [if_neg (lt_irrefl a), if_neg (lt_irrefl a)] at h2
        rw [if_neg (lt_irrefl a), if_neg (lt_irrefl a)]
        exact chListCompare_trans_lt h1 h2
      · rw [if_neg (not_lt_of_gt hac), if_pos hac] at h2
        cases h2
    · rw [if_neg (not_lt_of_gt hab), if_pos hab] at h1
      cases h1

theorem alphaCompare_swap (x y : List Char) :
    alphaCompare y x = (alphaCompare x y).swap := by
  unfold alphaCompare
  rw [boolCompare_swap x.isEmpty y.isEmpty, chListCompare_swap x y]
  rcases boolCompare x.isEmpty y.isEmpty with _ | _ | _ <;> rfl

theorem alphaCompare_eq_iff {x y : List Char} : alphaCompare x y = .eq ↔ x = y := by
  unfold alphaCompare
  cases hx : x.isEmpty <;> cases hy : y.isEmpty
  · exact chListCompare_eq_iff
  · constructor
    · intro hc
      cases show Ordering.lt = Ordering.eq from hc
    · intro hc
      subst hc
      rw [hx] at hy
      cases hy
  · constructor
    · intro hc
      cases show Ordering.gt = Ordering.eq from hc
    · intro hc
      subst hc
      rw [hx] at hy
      cases hy
  · exact chListCompare_eq_iff

theorem alphaCompare_trans_lt {x y z : List Char}
    (h1 : alphaCompare x y = .lt) (h2 : alphaCompare y z = .lt) :
    alphaCompare x z = .lt := by
  unfold alphaCompare at h1 h2 ⊢
  cases hx : x.isEmpty <;> cases hy : y.isEmpty <;> cases hz : z.isEmpty <;>
    rw [hx, hy] at h1 <;> rw [hy, hz] at h2
  · exact chListCompare_trans_lt h1 h2
  · rfl
  · cases show Ordering.gt = Ordering.lt from h2
  · rw [List.isEmpty_iff.mp hy, List.isEmpty_iff.mp hz] at h2
    cases show Ordering.eq = Ordering.lt from h2
  · cases show Ordering.gt = Ordering.lt from h1
  · cases show Ordering.gt = Ordering.lt from h1
  · rw [List.isEmpty_iff.mp hx, List.isEmpty_iff.mp hy] at h1
    cases show Ordering.eq = Ordering.lt from h1
  · rw [List.isEmpty_iff.mp hx, List.isEmpty_iff.mp hy] at h1
    cases show Ordering.eq = Ordering.lt from h1

/-! ## Span lemmas -/

theorem alnum_dichotomy {c : Char} (h : isAlnumChar c = true) :
    isDigitChar c = true ∨ isAlphaChar c = true := by
  have h' : (c.isAlpha || c.isDigit) = true := h
  rcases Bool.or_eq_true_iff.mp h' with ha | hd
  · exact .inr ha
  · exact .inl hd

theorem length_dropWhile_le (p : Char → Bool) (l : List Char) :
    (l.dropWhile p).length ≤ l.length :=
  (List.dropWhile_suffix p).sublist.length_le

theorem mem_of_mem_dropWhile {p : Char → Bool} {l : List Char} {c : Char}
    (h : c ∈ l.dropWhile p) : c ∈ l :=
  (List.dropWhile_suffix p).sublist.subset h

theorem not_both_empty {x y : List Char} (h : ¬(x.isEmpty && y.isEmpty) = true) :
    x ≠ [] ∨ y ≠ [] := by
  by_cases hx : x = []
  · right
    intro hy
    exact h (by simp [hx, hy])
  · exact .inl hx

theorem length_afterTok_le (x : List Char) : (afterTok x).length ≤ x.length :=
  le_trans (length_dropWhile_le _ _) (length_dropWhile_le _ _)

theorem length_afterTok_lt {x : List Char} (hne : x ≠ [])
    (hall : ∀ c ∈ x, isAlnumChar c = true) : (afterTok x).length < x.length := by
  obtain ⟨c, t, rfl⟩ := List.exists_cons_of_ne_nil hne
  by_cases hd : isDigitChar c = true
  · unfold afterTok afterNum
    rw [List.dropWhile_cons, if_pos hd]
    calc ((t.dropWhile isDigitChar).dropWhile isAlphaChar).length
        ≤ (t.dropWhile isDigitChar).length := length_dropWhile_le _ _
      _ ≤ t.length := length_dropWhile_le _ _
      _ < (c :: t).length := by simp
  · have ha : isAlphaChar c = true :=
      (alnum_dichotomy (hall c (List.mem_cons_self c t))).resolve_left hd
    unfold afterTok afterNum
    rw [List.dropWhile_cons, if_neg (by simp [hd]), List.dropWhile_cons, if_pos ha]
    calc (t.dropWhile isAlphaChar).length
        ≤ t.length := length_dropWhile_le _ _
      _ < (c :: t).length := by simp

theorem length_afterSep_le (a : List Char) : (afterSep a).length ≤ a.length :=
  le_trans (length_dropWhile_le _ _) (length_dropWhile_le _ _)

theorem length_afterSep_lt {a : List Char} (hne : a ≠ []) :
    (afterSep a).length < a.length := by
  obtain ⟨c, t, rfl⟩ := List.exists_cons_of_ne_nil hne
  by_cases hd : isAlnumChar c = true
  · unfold afterSep afterAlnum
    rw [List.dropWhile_cons, if_pos hd]
    calc ((t.dropWhile isAlnumChar).dropWhile fun c => !isAlnumChar c).length
        ≤ (t.dropWhile isAlnumChar).length := length_dropWhile_le _ _
      _ ≤ t.length := length_dropWhile_le _ _
      _ < (c :: t).length := by simp
  · unfold afterSep afterAlnum
    rw [List.dropWhile_cons, if_neg (by simp [hd]), List.dropWhile_cons,
      if_pos (by simp [hd])]
    calc ((t.dropWhile fun c => !isAlnumChar c).length)
        ≤ t.length := length_dropWhile_le _ _
      _ < (c :: t).length := by simp

theorem allAlnum_afterTok {x : List Char} (h : ∀ c ∈ x, isAlnumChar c = true) :
    ∀ c ∈ afterTok x, isAlnumChar c = true :=
  fun c hc => h c (mem_of_mem_dropWhile (mem_of_mem_dropWhile hc))

theorem allAlnum_alnumSpan (a : List Char) :
    ∀ c ∈ alnumSpan a, isAlnumChar c = true :=
  fun _ hc => List.mem_takeWhile_imp hc

/-! ## `parseNum` lemmas -/

theorem parseNum_nil : parseNum ([] : List Char) = some (-1) := rfl

theorem parseNum_nonneg {l : List Char} {v : Int} (hne : l ≠ [])
    (h : parseNum l = some v) : 0 ≤ v := by
  unfold parseNum at h
  rw [if_neg (by simp [hne])] at h
  by_cases hle : digitRunVal l ≤ 2147483647
  · rw [if_pos hle] at h
    injection h with h
    omega
  · rw [if_neg hle] at h
    cases h

/-! ## Inner-loop (`cmpAlnum`) laws -/

theorem cmpAlnum_swap : ∀ (f : Nat) (x y : List Char),
    cmpAlnum f x y = (cmpAlnum f y x).map Ordering.swap
  | 0, _, _ => rfl
  | f + 1, x, y => by
    simp only [cmpAlnum]
    by_cases hc : (x.isEmpty && y.isEmpty) = true
    · have hc' : (y.isEmpty && x.isEmpty) = true := by
        rcases Bool.and_eq_true_iff.mp hc with ⟨h1, h2⟩
        simp [h1, h2]
      rw [if_pos hc, if_pos hc']
      rfl
    · have hc' : ¬(y.isEmpty && x.isEmpty) = true := by
        intro h
        rcases Bool.and_eq_true_iff.mp h with ⟨h1, h2⟩
        exact hc (by simp [h1, h2])
      rw [if_neg hc, if_neg hc']
      rcases hpx : parseNum (numToken x) with _ | xv <;>
        rcases hpy : parseNum (numToken y) with _ | yv
      · rfl
      · rfl
      · rfl
      · simp only [intCompare_swap xv yv,
          alphaCompare_swap (alphaToken x) (alphaToken y)]
        rcases intCompare xv yv with _ | _ | _
        · rfl
        · rcases alphaCompare (alphaToken x) (alphaToken y) with _ | _ | _
          · rfl
          · exact cmpAlnum_swap f (afterTok x) (afterTok y)
          · rfl
        · rfl

theorem cmpAlnum_fuel_irrel : ∀ {f : Nat} {x y : List Char}, ∀ {g : Nat},
    (∀ c ∈ x, isAlnumChar c = true) → (∀ c ∈ y, isAlnumChar c = true) →
    x.length + y.length < f → x.length + y.length < g →
    cmpAlnum f x y = cmpAlnum g x y := by
  intro f
  induction f with
  | zero => omega
  | succ f ih =>
    intro x y g hax hay hf hg
    obtain ⟨g', rfl⟩ : ∃ k, g = k + 1 := ⟨g - 1, by omega⟩
    simp only [cmpAlnum]
    by_cases hc : (x.isEmpty && y.isEmpty) = true
    · rw [if_pos hc, if_pos hc]
    · rw [if_neg hc, if_neg hc]
      rcases hpx : parseNum (numToken x) with _ | xv <;>
        rcases hpy : parseNum (numToken y) with _ | yv
      · rfl
      · rfl
      · rfl
      · have hlen : (afterTok x).length + (afterTok y).length < f ∧
            (afterTok x).length + (afterTok y).length < g' := by
          rcases not_both_empty hc with h | h
          · have h1 := length_afterTok_lt h hax
            have h2 := length_afterTok_le y
            omega
          · have h1 := length_afterTok_le x
            have h2 := length_afterTok_lt h hay
            omega
        simp only []
        rcases intCompare xv yv with _ | _ | _
        · rfl
        · rcases alphaCompare (alphaToken x) (alphaToken y) with _ | _ | _
          · rfl
          · exact ih (allAlnum_afterTok hax) (allAlnum_afterTok hay) hlen.1 hlen.2
          · rfl
        · rfl

theorem numToken_cons_digit {c : Char} {t : List Char} (hd : isDigitChar c = true) :
    numToken (c :: t) = c :: t.takeWhile isDigitChar := by
  unfold numToken
  rw [List.takeWhile_cons, if_pos hd]

theorem numToken_cons_nondigit {c : Char} {t : List Char} (hd : ¬isDigitChar c = true) :
    numToken (c :: t) = [] := by
  unfold numToken
  rw [List.takeWhile_cons, if_neg hd]

theorem alphaToken_cons_alpha {c : Char} {t : List Char} (hd : ¬isDigitChar c = true)
    (ha : isAlphaChar c = true) :
    alphaToken (c :: t) = c :: t.takeWhile isAlphaChar := by
  unfold alphaToken afterNum
  rw [List.dropWhile_cons, if_neg hd, List.takeWhile_cons, if_pos ha]

/-- Two defined (`some`) results of the inner loop agree whatever the
fuels were. -/
theorem cmpAlnum_some_agree : ∀ {f : Nat} {x y : List Char} {g : Nat} {r r' : Ordering},
    cmpAlnum f x y = some r → cmpAlnum g x y = some r' → r = r' := by
  intro f
  induction f with
  | zero =>
    intro x y g r r' h1 _
    cases show (none : Option Ordering) = some r from h1
  | succ f ih =>
    intro x y g r r' h1 h2
    rcases g with _ | g
    · cases show (none : Option Ordering) = some r' from h2
    simp only [cmpAlnum] at h1 h2
    by_cases hc : (x.isEmpty && y.isEmpty) = true
    · rw [if_pos hc] at h1 h2
      injection h1 with h1
      injection h2 with h2
      rw [← h1, ← h2]
    · rw [if_neg hc] at h1 h2
      rcases hpx : parseNum (numToken x) with _ | xv <;> rw [hpx] at h1 h2
      · simp at h1
      rcases hpy : parseNum (numToken y) with _ | yv <;> rw [hpy] at h1 h2
      · simp at h1
      rcases hio : intCompare xv yv with _ | _ | _ <;> simp only [hio] at h1 h2
      · injection h1 with h1
        injection h2 with h2
        rw [← h1, ← h2]
      · rcases hao : alphaCompare (alphaToken x) (alphaToken y) with _ | _ | _ <;>
          simp only [hao] at h1 h2
        · injection h1 with h1
          injection h2 with h2
          rw [← h1, ← h2]
        · exact ih h1 h2
        · injection h1 with h1
          injection h2 with h2
          rw [← h1, ← h2]
      · injection h1 with h1
        injection h2 with h2
        rw [← h1, ← h2]

/-- The inner loop cannot declare the empty run equal to a nonempty
alphanumeric run. -/
theorem cmpAlnum_nil_left {f : Nat} {y : List Char}
    (hay : ∀ c ∈ y, isAlnumChar c = true) (hy : y ≠ [])
    (h : cmpAlnum f [] y = some Ordering.eq) : False := by
  obtain ⟨c, t, rfl⟩ := List.exists_cons_of_ne_nil hy
  rcases f with _ | f
  · cases show (none : Option Ordering) = some Ordering.eq from h
  · simp only [cmpAlnum] at h
    rw [if_neg (by simp)] at h
    rw [show parseNum (numToken ([] : List Char)) = some (-1) from rfl] at h
    by_cases hd : isDigitChar c = true
    · rw [numToken_cons_digit hd] at h
      rcases hpy : parseNum (c :: t.takeWhile isDigitChar) with _ | yv <;> rw [hpy] at h
      · simp at h
      · have hge : 0 ≤ yv := parseNum_nonneg (by simp) hpy
        have hio : intCompare (-1) yv = .lt := intCompare_lt_iff.mpr (by omega)
        simp only [hio] at h
        cases show some Ordering.lt = some Ordering.eq from h
    · have ha : isAlphaChar c = true :=
        (alnum_dichotomy (hay c (List.mem_cons_self c t))).resolve_left hd
      rw [numToken_cons_nondigit hd, parseNum_nil] at h
      simp only [show intCompare (-1 : Int) (-1) = Ordering.eq from rfl,
        show alphaToken ([] : List Char) = [] from rfl,
        alphaToken_cons_alpha hd ha,
        show alphaCompare [] (c :: t.takeWhile isAlphaChar) = Ordering.gt from rfl] at h
      cases show some Ordering.gt = some Ordering.eq from h

/-- An `eq` verdict of the inner loop relates empty runs only to empty
runs. -/
theorem cmpAlnum_eq_nil_iff {f : Nat} {x y : List Char}
    (hax : ∀ c ∈ x, isAlnumChar c = true) (hay : ∀ c ∈ y, isAlnumChar c = true)
    (h : cmpAlnum f x y = some Ordering.eq) : (x = [] ↔ y = []) := by
  constructor
  · intro hx
    subst hx
    by_contra hy
    exact cmpAlnum_nil_left hay hy h
  · intro hy
    subst hy
    by_contra hx
    rw [cmpAlnum_swap f x []] at h
    rcases hq : cmpAlnum f [] x with _ | o <;> rw [hq] at h
    · cases show (none : Option Ordering) = some Ordering.eq from h
    · rcases o with _ | _ | _
      · cases show some Ordering.gt = some Ordering.eq from h
      · exact cmpAlnum_nil_left hax hx hq
      · cases show some Ordering.lt = some Ordering.eq from h

/-- Substitutivity: a run compared `eq` to another can replace it in any
comparison. -/
theorem cmpAlnum_congr : ∀ {f₁ : Nat} {x y z : List Char} {f₂ f₃ : Nat},
    (∀ c ∈ x, isAlnumChar c = true) → (∀ c ∈ y, isAlnumChar c = true) →
    (∀ c ∈ z, isAlnumChar c = true) →
    x.length + z.length < f₂ → y.length + z.length < f₃ →
    cmpAlnum f₁ x y = some Ordering.eq →
    cmpAlnum f₂ x z = cmpAlnum f₃ y z := by
  intro f₁
  induction f₁ with
  | zero =>
    intro x y z f₂ f₃ _ _ _ _ _ h
    cases show (none : Option Ordering) = some Ordering.eq from h
  | succ f₁ ih =>
    intro x y z f₂ f₃ hax hay haz hf₂ hf₃ h
    have hiff := cmpAlnum_eq_nil_iff hax hay h
    obtain ⟨a, rfl⟩ : ∃ k, f₂ = k + 1 := ⟨f₂ - 1, by omega⟩
    obtain ⟨b, rfl⟩ : ∃ k, f₃ = k + 1 := ⟨f₃ - 1, by omega⟩
    simp only [cmpAlnum] at h
    by_cases hc : (x.isEmpty && y.isEmpty) = true
    · -- both sides start from the empty run
      rcases Bool.and_eq_true_iff.mp hc with ⟨h1, h2⟩
      have hx0 := List.isEmpty_iff.mp h1
      have hy0 := List.isEmpty_iff.mp h2
      rw [hx0, hy0]
      refine cmpAlnum_fuel_irrel (by simp) haz ?_ ?_
      · rw [hx0] at hf₂
        simpa using hf₂
      · rw [hy0] at hf₃
        simpa using hf₃
    · rw [if_neg hc] at h
      rcases hpx : parseNum (numToken x) with _ | xv <;> rw [hpx] at h
      · simp at h
      rcases hpy : parseNum (numToken y) with _ | yv <;> rw [hpy] at h
      · simp at h
      rcases hio : intCompare xv yv with _ | _ | _ <;> simp only [hio] at h
      · cases show some Ordering.lt = some Ordering.eq from h
      · have hxv : xv = yv := intCompare_eq_iff.mp hio
        subst hxv
        rcases hao : alphaCompare (alphaToken x) (alphaToken y) with _ | _ | _ <;>
          simp only [hao] at h
        · cases show some Ordering.lt = some Ordering.eq from h
        · have haeq : alphaToken x = alphaToken y := alphaCompare_eq_iff.mp hao
          by_cases hxz : (x.isEmpty && z.isEmpty) = true
          · rcases Bool.and_eq_true_iff.mp hxz with ⟨h1, h2⟩
            rw [List.isEmpty_iff.mp h1, List.isEmpty_iff.mp h2,
              hiff.mp (List.isEmpty_iff.mp h1)]
            rfl
          · have hyz : ¬(y.isEmpty && z.isEmpty) = true := by
              intro hcon
              rcases Bool.and_eq_true_iff.mp hcon with ⟨h1, h2⟩
              exact hxz (by simp [hiff.mpr (List.isEmpty_iff.mp h1), h2])
            simp only [cmpAlnum]
            rw [if_neg hxz, if_neg hyz, hpx, hpy]
            rcases hpz : parseNum (numToken z) with _ | zv
            · rfl
            · have hbounds : (afterTok x).length + (afterTok z).length < a ∧
                  (afterTok y).length + (afterTok z).length < b := by
                constructor
                · rcases not_both_empty hxz with hne | hne
                  · have := length_afterTok_lt hne hax
                    have := length_afterTok_le z
                    omega
                  · have := length_afterTok_le x
                    have := length_afterTok_lt hne haz
                    omega
                · rcases not_both_empty hyz with hne | hne
                  · have := length_afterTok_lt hne hay
                    have := length_afterTok_le z
                    omega
                  · have := length_afterTok_le y
                    have := length_afterTok_lt hne haz
                    omega
              simp only [haeq]
              rcases intCompare xv zv with _ | _ | _
              · rfl
              · rcases alphaCompare (alphaToken y) (alphaToken z) with _ | _ | _
                · rfl
                · exact ih (allAlnum_afterTok hax) (allAlnum_afterTok hay)
                    (allAlnum_afterTok haz) hbounds.1 hbounds.2 h
                · rfl
              · rfl
        · cases show some Ordering.gt = some Ordering.eq from h
      · cases show some Ordering.gt = some Ordering.eq from h

/-- Transitivity of the `lt` verdict of the inner loop. -/
theorem cmpAlnum_trans_lt : ∀ {f₁ : Nat} {x y z : List Char} {f₂ f₃ : Nat},
    (∀ c ∈ x, isAlnumChar c = true) → (∀ c ∈ y, isAlnumChar c = true) →
    (∀ c ∈ z, isAlnumChar c = true) →
    x.length + z.length < f₃ →
    cmpAlnum f₁ x y = some Ordering.lt → cmpAlnum f₂ y z = some Ordering.lt →
    cmpAlnum f₃ x z = some Ordering.lt := by
  intro f₁
  induction f₁ with
  | zero =>
    intro x y z f₂ f₃ _ _ _ _ h1 _
    cases show (none : Option Ordering) = some Ordering.lt from h1
  | succ f₁ ih =>
    intro x y z f₂ f₃ hax hay haz hf₃ h1 h2
    rcases f₂ with _ | f₂
    · cases show (none : Option Ordering) = some Ordering.lt from h2
    obtain ⟨d, rfl⟩ : ∃ k, f₃ = k + 1 := ⟨f₃ - 1, by omega⟩
    simp only [cmpAlnum] at h1 h2 ⊢
    by_cases hcxy : (x.isEmpty && y.isEmpty) = true
    · rw [if_pos hcxy] at h1
      cases show some Ordering.eq = some Ordering.lt from h1
    by_cases hcyz : (y.isEmpty && z.isEmpty) = true
    · rw [if_pos hcyz] at h2
      cases show some Ordering.eq = some Ordering.lt from h2
    rw [if_neg hcxy] at h1
    rw [if_neg hcyz] at h2
    rcases hpx : parseNum (numToken x) with _ | xv <;> rw [hpx] at h1
    · simp at h1
    rcases hpy : parseNum (numToken y) with _ | yv <;> rw [hpy] at h1 h2
    · simp at h1
    rcases hpz : parseNum (numToken z) with _ | zv <;> rw [hpz] at h2
    · simp at h2
    have hcxz : ¬(x.isEmpty && z.isEmpty) = true := by
      intro hcon
      rcases Bool.and_eq_true_iff.mp hcon with ⟨hx0, hz0⟩
      -- with x and z empty, `cmpAlnum x y` and `cmpAlnum y z` cannot both be lt
      have hx0' : x = [] := List.isEmpty_iff.mp hx0
      have hz0' : z = [] := List.isEmpty_iff.mp hz0
      subst hx0'
      subst hz0'
      have H1 : cmpAlnum (f₁ + 1) [] y = some Ordering.lt := by
        simp only [cmpAlnum]
        rw [if_neg hcxy, hpx, hpy]
        exact h1
      have H2 : cmpAlnum (f₂ + 1) y [] = some Ordering.lt := by
        simp only [cmpAlnum]
        rw [if_neg hcyz, hpy, hpz]
        exact h2
      have H2' := cmpAlnum_swap (f₂ + 1) y []
      rw [H2] at H2'
      rcases hq : cmpAlnum (f₂ + 1) [] y with _ | o <;> rw [hq] at H2'
      · cases show some Ordering.lt = (none : Option Ordering) from H2'
      · rcases o with _ | _ | _
        · cases show some Ordering.lt = some Ordering.gt from H2'
        · cases show some Ordering.lt = some Ordering.eq from H2'
        · cases cmpAlnum_some_agree H1 hq
    rw [if_neg hcxz]
    rcases hio1 : intCompare xv yv with _ | _ | _ <;> simp only [hio1] at h1
    · -- xv < yv
      rcases hio2 : intCompare yv zv with _ | _ | _ <;> simp only [hio2] at h2
      · have : intCompare xv zv = .lt := intCompare_lt_iff.mpr
          (lt_trans (intCompare_lt_iff.mp hio1) (intCompare_lt_iff.mp hio2))
        simp only [this]
      · have hyz : yv = zv := intCompare_eq_iff.mp hio2
        have : intCompare xv zv = .lt := intCompare_lt_iff.mpr
          (hyz ▸ intCompare_lt_iff.mp hio1)
        simp only [this]
      · cases show some Ordering.gt = some Ordering.lt from h2
    · -- xv = yv
      have hxv : xv = yv := intCompare_eq_iff.mp hio1
      rcases hio2 : intCompare yv zv with _ | _ | _ <;> simp only [hio2] at h2
      · have : intCompare xv zv = .lt := intCompare_lt_iff.mpr
          (hxv ▸ intCompare_lt_iff.mp hio2)
        simp only [this]
      · have hyz : yv = zv := intCompare_eq_iff.mp hio2
        have hxz : intCompare xv zv = .eq := intCompare_eq_iff.mpr (hxv.trans hyz)
        simp only [hxz]
        rcases hao1 : alphaCompare (alphaToken x) (alphaToken y) with _ | _ | _ <;>
          simp only [hao1] at h1
        · rcases hao2 : alphaCompare (alphaToken y) (alphaToken z) with _ | _ | _ <;>
            simp only [hao2] at h2
          · simp only [alphaCompare_trans_lt hao1 hao2]
          · have := alphaCompare_eq_iff.mp hao2
            simp only [this ▸ hao1]
          · cases show some Ordering.gt = some Ordering.lt from h2
        · have haeq : alphaToken x = alphaToken y := alphaCompare_eq_iff.mp hao1
          rcases hao2 : alphaCompare (alphaToken y) (alphaToken z) with _ | _ | _ <;>
            simp only [hao2] at h2
          · simp only [haeq ▸ hao2]
          · have haeq2 : alphaToken y = alphaToken z := alphaCompare_eq_iff.mp hao2
            have : alphaCompare (alphaToken x) (alphaToken z) = .eq :=
              alphaCompare_eq_iff.mpr (haeq.trans haeq2)
            simp only [this]
            have hbound : (afterTok x).length + (afterTok z).length < d := by
              rcases not_both_empty hcxz with hne | hne
              · have := length_afterTok_lt hne hax
                have := length_afterTok_le z
                omega
              · have := length_afterTok_le x
                have := length_afterTok_lt hne haz
                omega
            exact ih (allAlnum_afterTok hax) (allAlnum_afterTok hay)
              (allAlnum_afterTok haz) hbound h1 h2
          · cases show some Ordering.gt = some Ordering.lt from h2
        · cases show some Ordering.gt = some Ordering.lt from h1
      · cases show some Ordering.gt = some Ordering.lt from h2
    · cases show some Ordering.gt = some Ordering.lt from h1

/-! ## Digit-run bounds and totality of the inner loop -/

theorem hasLongRun_of_suffix : ∀ {l₁ l₂ : List Char}, l₁ <:+ l₂ →
    hasLongRun l₁ = true → hasLongRun l₂ = true := by
  intro l₁ l₂
  induction l₂ with
  | nil =>
    intro hs h
    rw [List.suffix_nil.mp hs] at h
    cases h
  | cons c t ih =>
    intro hs h
    rcases List.suffix_cons_iff.mp hs with h1 | h1
    · subst h1
      exact h
    · unfold hasLongRun
      simp [ih h1 h]

theorem hasLongRun_of_prefixOf : ∀ {l₁ : List Char} {l₂ : List Char}, l₁ <+: l₂ →
    hasLongRun l₁ = true → hasLongRun l₂ = true := by
  intro l₁
  induction l₁ with
  | nil =>
    intro l₂ _ h
    cases h
  | cons c t ih =>
    intro l₂ hp h
    obtain ⟨s, rfl⟩ := hp
    unfold hasLongRun at h
    rcases Bool.or_eq_true_iff.mp h with hchk | hrest
    · rcases Bool.and_eq_true_iff.mp hchk with ⟨hall, hlen⟩
      have hl : ((c :: t).take 10).length = 10 := by simpa using hlen
      have h10 : 10 ≤ (c :: t).length := by
        have := List.length_take 10 (c :: t)
        omega
      have heq : ((c :: t) ++ s).take 10 = (c :: t).take 10 :=
        List.take_append_of_le_length h10
      show hasLongRun (c :: (t ++ s)) = true
      unfold hasLongRun
      refine Bool.or_eq_true_iff.mpr (.inl (Bool.and_eq_true_iff.mpr ⟨?_, ?_⟩))
      · rw [show (c :: (t ++ s)) = (c :: t) ++ s from rfl, heq]
        exact hall
      · rw [show (c :: (t ++ s)) = (c :: t) ++ s from rfl, heq]
        exact hlen
    · have hts : hasLongRun (t ++ s) = true := ih (List.prefix_append t s) hrest
      show hasLongRun (c :: (t ++ s)) = true
      unfold hasLongRun
      simp [hts]

theorem hasLongRun_false_of_infixOf {l₁ l₂ : List Char} (h : l₁ <:+: l₂)
    (hl : hasLongRun l₂ = false) : hasLongRun l₁ = false := by
  obtain ⟨p, s, rfl⟩ := h
  by_contra hc
  have hc' : hasLongRun l₁ = true := by
    revert hc
    cases hasLongRun l₁ <;> simp
  have h1 : hasLongRun (l₁ ++ s) = true :=
    hasLongRun_of_prefixOf (List.prefix_append _ _) hc'
  have h2 : hasLongRun (p ++ (l₁ ++ s)) = true :=
    hasLongRun_of_suffix (List.suffix_append _ _) h1
  rw [show p ++ l₁ ++ s = p ++ (l₁ ++ s) from List.append_assoc p l₁ s] at hl
  rw [hl] at h2
  cases h2

theorem hasLongRun_false_suffix {l₁ l₂ : List Char} (h : l₁ <:+ l₂)
    (hl : hasLongRun l₂ = false) : hasLongRun l₁ = false :=
  hasLongRun_false_of_infixOf h.isInfix hl

theorem hasLongRun_false_prefixOf {l₁ l₂ : List Char} (h : l₁ <+: l₂)
    (hl : hasLongRun l₂ = false) : hasLongRun l₁ = false :=
  hasLongRun_false_of_infixOf h.isInfix hl

theorem takeWhile_digit_short {l : List Char} (h : hasLongRun l = false) :
    (l.takeWhile isDigitChar).length ≤ 9 := by
  by_contra hc
  push_neg at hc
  obtain ⟨c, t, rfl⟩ : ∃ c t, l = c :: t := by
    cases l with
    | nil => simp [List.takeWhile] at hc
    | cons c t => exact ⟨c, t, rfl⟩
  have h10 : 10 ≤ (List.takeWhile isDigitChar (c :: t)).length := hc
  have htw : List.takeWhile isDigitChar (c :: t) <+: (c :: t) :=
    List.takeWhile_prefix _
  have hta : ((c :: t).take 10).all isDigitChar = true := by
    obtain ⟨s, hs⟩ := htw
    have heq : (c :: t).take 10 = (List.takeWhile isDigitChar (c :: t)).take 10 := by
      conv_lhs => rw [← hs]
      exact List.take_append_of_le_length h10
    rw [heq]
    refine List.all_eq_true.mpr ?_
    intro a ha
    exact List.mem_takeWhile_imp (List.take_subset _ _ ha)
  have hlen : (((c :: t).take 10).length == 10) = true := by
    have hle : (List.takeWhile isDigitChar (c :: t)).length ≤ (c :: t).length :=
      htw.length_le
    have := List.length_take 10 (c :: t)
    simp only [Nat.beq_eq_true_eq]
    omega
  have hrun : hasLongRun (c :: t) = true := by
    unfold hasLongRun
    exact Bool.or_eq_true_iff.mpr (.inl (Bool.and_eq_true_iff.mpr ⟨hta, hlen⟩))
  rw [h] at hrun
  cases hrun

theorem digit_val_le {c : Char} (h : isDigitChar c = true) : c.toNat - 48 ≤ 9 := by
  have h' : 48 ≤ c.toNat ∧ c.toNat ≤ 57 := by
    simp [isDigitChar, Char.isDigit] at h
    exact h
  omega

theorem digitRunVal_bound : ∀ (l : List Char) (acc : Nat),
    (∀ c ∈ l, isDigitChar c = true) →
    l.foldl (fun n c => 10 * n + (c.toNat - 48)) acc < (acc + 1) * 10 ^ l.length := by
  intro l
  induction l with
  | nil =>
    intro acc _
    simp
  | cons c t ih =>
    intro acc hall
    have hd := digit_val_le (hall c (List.mem_cons_self c t))
    have h1 := ih (10 * acc + (c.toNat - 48)) fun x hx => hall x (List.mem_cons_of_mem c hx)
    show List.foldl _ (10 * acc + (c.toNat - 48)) t < (acc + 1) * 10 ^ (c :: t).length
    calc List.foldl (fun n c => 10 * n + (c.toNat - 48)) (10 * acc + (c.toNat - 48)) t
        < (10 * acc + (c.toNat - 48) + 1) * 10 ^ t.length := h1
      _ ≤ (10 * (acc + 1)) * 10 ^ t.length := Nat.mul_le_mul_right _ (by omega)
      _ = (acc + 1) * 10 ^ (t.length + 1) := by ring
      _ = (acc + 1) * 10 ^ (c :: t).length := by rw [List.length_cons]

theorem parseNum_numToken_isSome {l : List Char} (h : hasLongRun l = false) :
    (parseNum (numToken l)).isSome := by
  by_cases hne : (numToken l).isEmpty = true
  · unfold parseNum
    rw [if_pos hne]
    rfl
  · have hlen : (numToken l).length ≤ 9 := takeWhile_digit_short h
    have hall : ∀ c ∈ numToken l, isDigitChar c = true :=
      fun c hc => List.mem_takeWhile_imp hc
    have hval : digitRunVal (numToken l) < 10 ^ (numToken l).length := by
      have := digitRunVal_bound (numToken l) 0 hall
      simpa [digitRunVal] using this
    have hbnd : digitRunVal (numToken l) ≤ 2147483647 := by
      have h9 : (10 : Nat) ^ (numToken l).length ≤ 10 ^ 9 :=
        Nat.pow_le_pow_right (by omega) hlen
      have h10 : (10 : Nat) ^ 9 = 1000000000 := by norm_num
      omega
    unfold parseNum
    rw [if_neg hne, if_pos hbnd]
    rfl

theorem afterTok_suffix (x : List Char) : afterTok x <:+ x :=
  (List.dropWhile_suffix _).trans (List.dropWhile_suffix _)

theorem afterSep_suffix (a : List Char) : afterSep a <:+ a :=
  (List.dropWhile_suffix _).trans (List.dropWhile_suffix _)

theorem cmpAlnum_total : ∀ {f : Nat} {x y : List Char},
    (∀ c ∈ x, isAlnumChar c = true) → (∀ c ∈ y, isAlnumChar c = true) →
    hasLongRun x = false → hasLongRun y = false →
    x.length + y.length < f → (cmpAlnum f x y).isSome := by
  intro f
  induction f with
  | zero =>
    intro x y _ _ _ _ h
    omega
  | succ f ih =>
    intro x y hax hay hlx hly hf
    simp only [cmpAlnum]
    by_cases hc : (x.isEmpty && y.isEmpty) = true
    · rw [if_pos hc]
      rfl
    · rw [if_neg hc]
      obtain ⟨xv, hpx⟩ := Option.isSome_iff_exists.mp (parseNum_numToken_isSome hlx)
      obtain ⟨yv, hpy⟩ := Option.isSome_iff_exists.mp (parseNum_numToken_isSome hly)
      rw [hpx, hpy]
      rcases hio : intCompare xv yv with _ | _ | _ <;> simp only [hio]
      · rfl
      · rcases hao : alphaCompare (alphaToken x) (alphaToken y) with _ | _ | _ <;>
          simp only [hao]
        · rfl
        · have hbound : (afterTok x).length + (afterTok y).length < f := by
            rcases not_both_empty hc with hne | hne
            · have := length_afterTok_lt hne hax
              have := length_afterTok_le y
              omega
            · have := length_afterTok_le x
              have := length_afterTok_lt hne hay
              omega
          exact ih (allAlnum_afterTok hax) (allAlnum_afterTok hay)
            (hasLongRun_false_suffix (afterTok_suffix x) hlx)
            (hasLongRun_false_suffix (afterTok_suffix y) hly) hbound
        · rfl
      · rfl

/-! ## Outer-loop (`cmpVersionChars`) laws -/

theorem cmpVersionChars_swap : ∀ (f : Nat) (a b : List Char),
    cmpVersionChars f a b = (cmpVersionChars f b a).map Ordering.swap
  | 0, _, _ => rfl
  | f + 1, a, b => by
    simp only [cmpVersionChars]
    by_cases hc : (a.isEmpty && b.isEmpty) = true
    · have hc' : (b.isEmpty && a.isEmpty) = true := by
        rcases Bool.and_eq_true_iff.mp hc with ⟨h1, h2⟩
        simp [h1, h2]
      rw [if_pos hc, if_pos hc']
      rfl
    · have hc' : ¬(b.isEmpty && a.isEmpty) = true := by
        intro h
        rcases Bool.and_eq_true_iff.mp h with ⟨h1, h2⟩
        exact hc (by simp [h1, h2])
      rw [if_neg hc, if_neg hc']
      rw [show (alnumSpan b).length + (alnumSpan a).length
          = (alnumSpan a).length + (alnumSpan b).length from Nat.add_comm _ _]
      rw [cmpAlnum_swap ((alnumSpan a).length + (alnumSpan b).length + 1)
        (alnumSpan b) (alnumSpan a)]
      rcases hin : cmpAlnum ((alnumSpan a).length + (alnumSpan b).length + 1)
          (alnumSpan a) (alnumSpan b) with _ | o
      · rfl
      · rcases o with _ | _ | _
        · rfl
        · simp only [boolCompare_swap (!(sepSpan a).isEmpty) (!(sepSpan b).isEmpty)]
          rcases boolCompare (!(sepSpan a).isEmpty) (!(sepSpan b).isEmpty) with _ | _ | _
          · rfl
          · exact cmpVersionChars_swap f (afterSep a) (afterSep b)
          · rfl
        · rfl

theorem cmpVersionChars_some_agree : ∀ {f : Nat} {a b : List Char} {g : Nat} {r r' : Ordering},
    cmpVersionChars f a b = some r → cmpVersionChars g a b = some r' → r = r' := by
  intro f
  induction f with
  | zero =>
    intro a b g r r' h1 _
    cases show (none : Option Ordering) = some r from h1
  | succ f ih =>
    intro a b g r r' h1 h2
    rcases g with _ | g
    · cases show (none : Option Ordering) = some r' from h2
    simp only [cmpVersionChars] at h1 h2
    by_cases hc : (a.isEmpty && b.isEmpty) = true
    · rw [if_pos hc] at h1 h2
      injection h1 with h1
      injection h2 with h2
      rw [← h1, ← h2]
    · rw [if_neg hc] at h1 h2
      rcases hin : cmpAlnum ((alnumSpan a).length + (alnumSpan b).length + 1)
          (alnumSpan a) (alnumSpan b) with _ | o <;> rw [hin] at h1 h2
      · simp at h1
      · rcases o with _ | _ | _
        · injection h1 with h1
          injection h2 with h2
          rw [← h1, ← h2]
        · rcases hbo : boolCompare (!(sepSpan a).isEmpty) (!(sepSpan b).isEmpty)
              with _ | _ | _ <;> simp only [hbo] at h1 h2
          · injection h1 with h1
            injection h2 with h2
            rw [← h1, ← h2]
          · exact ih h1 h2
          · injection h1 with h1
            injection h2 with h2
            rw [← h1, ← h2]
        · injection h1 with h1
          injection h2 with h2
          rw [← h1, ← h2]

theorem cmpVersionChars_nil_left {f : Nat} {b : List Char} (hb : b ≠ [])
    (h : cmpVersionChars f [] b = some Ordering.eq) : False := by
  rcases f with _ | f
  · cases show (none : Option Ordering) = some Ordering.eq from h
  simp only [cmpVersionChars] at h
  rw [if_neg (by simp [List.isEmpty_iff, hb])] at h
  rcases hin : cmpAlnum ((alnumSpan ([] : List Char)).length + (alnumSpan b).length + 1)
      (alnumSpan ([] : List Char)) (alnumSpan b) with _ | o <;> rw [hin] at h
  · simp at h
  · rcases o with _ | _ | _
    · cases show some Ordering.lt = some Ordering.eq from h
    · have hiff := cmpAlnum_eq_nil_iff (allAlnum_alnumSpan [])
        (allAlnum_alnumSpan b) hin
      have hspan : alnumSpan b = [] := hiff.mp rfl
      have hsep : sepSpan b ≠ [] := by
        obtain ⟨c, t, rfl⟩ := List.exists_cons_of_ne_nil hb
        have hcAl : ¬isAlnumChar c = true := by
          intro hcc
          have hcons : alnumSpan (c :: t) = c :: t.takeWhile isAlnumChar := by
            unfold alnumSpan
            rw [List.takeWhile_cons, if_pos hcc]
          rw [hcons] at hspan
          cases hspan
        unfold sepSpan afterAlnum
        rw [List.dropWhile_cons, if_neg hcAl, List.takeWhile_cons,
          if_pos (by simp [hcAl])]
        simp
      have hsp : (sepSpan b).isEmpty = false := by
        rcases hb2 : (sepSpan b).isEmpty with _ | _
        · rfl
        · exact absurd (List.isEmpty_iff.mp hb2) hsep
      rw [show sepSpan ([] : List Char) = [] from rfl, hsp] at h
      cases show some Ordering.lt = some Ordering.eq from h
    · cases show some Ordering.gt = some Ordering.eq from h

theorem cmpVersionChars_eq_nil_iff {f : Nat} {a b : List Char}
    (h : cmpVersionChars f a b = some Ordering.eq) : (a = [] ↔ b = []) := by
  constructor
  · intro ha
    subst ha
    by_contra hb
    exact cmpVersionChars_nil_left hb h
  · intro hb
    subst hb
    by_contra ha
    rw [cmpVersionChars_swap f a []] at h
    rcases hq : cmpVersionChars f [] a with _ | o <;> rw [hq] at h
    · cases show (none : Option Ordering) = some Ordering.eq from h
    · rcases o with _ | _ | _
      · cases show some Ordering.gt = some Ordering.eq from h
      · exact cmpVersionChars_nil_left ha hq
      · cases show some Ordering.lt = some Ordering.eq from h

theorem boolCompare_trans_lt : ∀ {a b c : Bool},
    boolCompare a b = .lt → boolCompare b c = .lt → boolCompare a c = .lt := by
  decide

theorem cmpVersionChars_fuel_irrel : ∀ {f : Nat} {a b : List Char} {g : Nat},
    a.length + b.length < f → a.length + b.length < g →
    cmpVersionChars f a b = cmpVersionChars g a b := by
  intro f
  induction f with
  | zero => omega
  | succ f ih =>
    intro a b g hf hg
    obtain ⟨g', rfl⟩ : ∃ k, g = k + 1 := ⟨g - 1, by omega⟩
    simp only [cmpVersionChars]
    by_cases hc : (a.isEmpty && b.isEmpty) = true
    · rw [if_pos hc, if_pos hc]
    · rw [if_neg hc, if_neg hc]
      rcases cmpAlnum ((alnumSpan a).length + (alnumSpan b).length + 1)
          (alnumSpan a) (alnumSpan b) with _ | o
      · rfl
      · rcases o with _ | _ | _
        · rfl
        · rcases boolCompare (!(sepSpan a).isEmpty) (!(sepSpan b).isEmpty) with _ | _ | _
          · rfl
          · have hb : (afterSep a).length + (afterSep b).length < f ∧
                (afterSep a).length + (afterSep b).length < g' := by
              rcases not_both_empty hc with hne | hne
              · have := length_afterSep_lt hne
                have := length_afterSep_le b
                omega
              · have := length_afterSep_le a
                have := length_afterSep_lt hne
                omega
            exact ih hb.1 hb.2
          · rfl
        · rfl

theorem cmpVersionChars_congr : ∀ {f₁ : Nat} {x y z : List Char} {f₂ f₃ : Nat},
    x.length + z.length < f₂ → y.length + z.length < f₃ →
    cmpVersionChars f₁ x y = some Ordering.eq →
    cmpVersionChars f₂ x z = cmpVersionChars f₃ y z := by
  intro f₁
  induction f₁ with
  | zero =>
    intro x y z f₂ f₃ _ _ h
    cases show (none : Option Ordering) = some Ordering.eq from h
  | succ f₁ ih =>
    intro x y z f₂ f₃ hf₂ hf₃ h
    have hiff := cmpVersionChars_eq_nil_iff h
    obtain ⟨a2, rfl⟩ : ∃ k, f₂ = k + 1 := ⟨f₂ - 1, by omega⟩
    obtain ⟨b2, rfl⟩ : ∃ k, f₃ = k + 1 := ⟨f₃ - 1, by omega⟩
    simp only [cmpVersionChars] at h
    by_cases hc : (x.isEmpty && y.isEmpty) = true
    · rcases Bool.and_eq_true_iff.mp hc with ⟨h1, h2⟩
      have hx0 := List.isEmpty_iff.mp h1
      have hy0 := List.isEmpty_iff.mp h2
      rw [hx0, hy0]
      refine cmpVersionChars_fuel_irrel ?_ ?_
      · rw [hx0] at hf₂
        simpa using hf₂
      · rw [hy0] at hf₃
        simpa using hf₃
    · rw [if_neg hc] at h
      rcases hin : cmpAlnum ((alnumSpan x).length + (alnumSpan y).length + 1)
          (alnumSpan x) (alnumSpan y) with _ | o <;> rw [hin] at h
      · simp at h
      rcases o with _ | _ | _
      · cases show some Ordering.lt = some Ordering.eq from h
      · rcases hbo : boolCompare (!(sepSpan x).isEmpty) (!(sepSpan y).isEmpty)
            with _ | _ | _ <;> simp only [hbo] at h
        · cases show some Ordering.lt = some Ordering.eq from h
        · have hflag : (!(sepSpan x).isEmpty) = (!(sepSpan y).isEmpty) :=
            boolCompare_eq_iff.mp hbo
          by_cases hxz : (x.isEmpty && z.isEmpty) = true
          · rcases Bool.and_eq_true_iff.mp hxz with ⟨h1, h2⟩
            rw [List.isEmpty_iff.mp h1, List.isEmpty_iff.mp h2,
              hiff.mp (List.isEmpty_iff.mp h1)]
            rfl
          · have hyz : ¬(y.isEmpty && z.isEmpty) = true := by
              intro hcon
              rcases Bool.and_eq_true_iff.mp hcon with ⟨h1, h2⟩
              exact hxz (by simp [hiff.mpr (List.isEmpty_iff.mp h1), h2])
            simp only [cmpVersionChars]
            rw [if_neg hxz, if_neg hyz]
            have hinner := @cmpAlnum_congr
              ((alnumSpan x).length + (alnumSpan y).length + 1)
              (alnumSpan x) (alnumSpan y) (alnumSpan z)
              ((alnumSpan x).length + (alnumSpan z).length + 1)
              ((alnumSpan y).length + (alnumSpan z).length + 1)
              (allAlnum_alnumSpan x) (allAlnum_alnumSpan y) (allAlnum_alnumSpan z)
              (by omega) (by omega) hin
            rw [hinner]
            rcases cmpAlnum ((alnumSpan y).length + (alnumSpan z).length + 1)
                (alnumSpan y) (alnumSpan z) with _ | o2
            · rfl
            · rcases o2 with _ | _ | _
              · rfl
              · rw [hflag]
                rcases boolCompare (!(sepSpan y).isEmpty) (!(sepSpan z).isEmpty)
                    with _ | _ | _
                · rfl
                · have hbounds : (afterSep x).length + (afterSep z).length < a2 ∧
                      (afterSep y).length + (afterSep z).length < b2 := by
                    constructor
                    · rcases not_both_empty hxz with hne | hne
                      · have := length_afterSep_lt hne
                        have := length_afterSep_le z
                        omega
                      · have := length_afterSep_le x
                        have := length_afterSep_lt hne
                        omega
                    · rcases not_both_empty hyz with hne | hne
                      · have := length_afterSep_lt hne
                        have := length_afterSep_le z
                        omega
                      · have := length_afterSep_le y
                        have := length_afterSep_lt hne
                        omega
                  exact ih hbounds.1 hbounds.2 h
                · rfl
              · rfl
        · cases show some Ordering.gt = some Ordering.eq from h
      · cases show some Ordering.gt = some Ordering.eq from h

theorem cmpAlnum_congr_right {f₁ : Nat} {y z x : List Char} {f₂ f₃ : Nat}
    (hax : ∀ c ∈ x, isAlnumChar c = true) (hay : ∀ c ∈ y, isAlnumChar c = true)
    (haz : ∀ c ∈ z, isAlnumChar c = true)
    (hb₂ : x.length + y.length < f₂) (hb₃ : x.length + z.length < f₃)
    (h : cmpAlnum f₁ y z = some Ordering.eq) :
    cmpAlnum f₂ x y = cmpAlnum f₃ x z := by
  rw [cmpAlnum_swap f₂ x y, cmpAlnum_swap f₃ x z,
    @cmpAlnum_congr f₁ y z x f₂ f₃ hay haz hax (by omega) (by omega) h]

theorem cmpVersionChars_congr_right {f₁ : Nat} {y z x : List Char} {f₂ f₃ : Nat}
    (hb₂ : x.length + y.length < f₂) (hb₃ : x.length + z.length < f₃)
    (h : cmpVersionChars f₁ y z = some Ordering.eq) :
    cmpVersionChars f₂ x y = cmpVersionChars f₃ x z := by
  rw [cmpVersionChars_swap f₂ x y, cmpVersionChars_swap f₃ x z,
    @cmpVersionChars_congr f₁ y z x f₂ f₃ (by omega) (by omega) h]

theorem cmpVersionChars_trans_lt : ∀ {f₁ : Nat} {x y z : List Char} {f₂ f₃ : Nat},
    x.length + z.length < f₃ →
    cmpVersionChars f₁ x y = some Ordering.lt →
    cmpVersionChars f₂ y z = some Ordering.lt →
    cmpVersionChars f₃ x z = some Ordering.lt := by
  intro f₁
  induction f₁ with
  | zero =>
    intro x y z f₂ f₃ _ h1 _
    cases show (none : Option Ordering) = some Ordering.lt from h1
  | succ f₁ ih =>
    intro x y z f₂ f₃ hf₃ h1 h2
    rcases f₂ with _ | f₂
    · cases show (none : Option Ordering) = some Ordering.lt from h2
    obtain ⟨d, rfl⟩ : ∃ k, f₃ = k + 1 := ⟨f₃ - 1, by omega⟩
    simp only [cmpVersionChars] at h1 h2 ⊢
    by_cases hcxy : (x.isEmpty && y.isEmpty) = true
    · rw [if_pos hcxy] at h1
      cases show some Ordering.eq = some Ordering.lt from h1
    by_cases hcyz : (y.isEmpty && z.isEmpty) = true
    · rw [if_pos hcyz] at h2
      cases show some Ordering.eq = some Ordering.lt from h2
    rw [if_neg hcxy] at h1
    rw [if_neg hcyz] at h2
    have hcxz : ¬(x.isEmpty && z.isEmpty) = true := by
      intro hcon
      rcases Bool.and_eq_true_iff.mp hcon with ⟨hx0, hz0⟩
      have hx0' : x = [] := List.isEmpty_iff.mp hx0
      have hz0' : z = [] := List.isEmpty_iff.mp hz0
      subst hx0'
      subst hz0'
      have H1 : cmpVersionChars (f₁ + 1) [] y = some Ordering.lt := by
        simp only [cmpVersionChars]
        rw [if_neg hcxy]
        exact h1
      have H2 : cmpVersionChars (f₂ + 1) y [] = some Ordering.lt := by
        simp only [cmpVersionChars]
        rw [if_neg hcyz]
        exact h2
      have H2' := cmpVersionChars_swap (f₂ + 1) y []
      rw [H2] at H2'
      rcases hq : cmpVersionChars (f₂ + 1) [] y with _ | o <;> rw [hq] at H2'
      · cases show some Ordering.lt = (none : Option Ordering) from H2'
      · rcases o with _ | _ | _
        · cases show some Ordering.lt = some Ordering.gt from H2'
        · cases show some Ordering.lt = some Ordering.eq from H2'
        · cases cmpVersionChars_some_agree H1 hq
    rw [if_neg hcxz]
    rcases hin1 : cmpAlnum ((alnumSpan x).length + (alnumSpan y).length + 1)
        (alnumSpan x) (alnumSpan y) with _ | o1 <;> rw [hin1] at h1
    · simp at h1
    rcases o1 with _ | _ | _
    · -- alnum spans of x and y compare lt
      rcases hin2 : cmpAlnum ((alnumSpan y).length + (alnumSpan z).length + 1)
          (alnumSpan y) (alnumSpan z) with _ | o2 <;> rw [hin2] at h2
      · simp at h2
      rcases o2 with _ | _ | _
      · have hlt := @cmpAlnum_trans_lt
          ((alnumSpan x).length + (alnumSpan y).length + 1)
          (alnumSpan x) (alnumSpan y) (alnumSpan z)
          ((alnumSpan y).length + (alnumSpan z).length + 1)
          ((alnumSpan x).length + (alnumSpan z).length + 1)
          (allAlnum_alnumSpan x) (allAlnum_alnumSpan y) (allAlnum_alnumSpan z)
          (by omega) hin1 hin2
        rw [hlt]
      · have heq := @cmpAlnum_congr_right
          ((alnumSpan y).length + (alnumSpan z).length + 1)
          (alnumSpan y) (alnumSpan z) (alnumSpan x)
          ((alnumSpan x).length + (alnumSpan y).length + 1)
          ((alnumSpan x).length + (alnumSpan z).length + 1)
          (allAlnum_alnumSpan x) (allAlnum_alnumSpan y) (allAlnum_alnumSpan z)
          (by omega) (by omega) hin2
        rw [← heq, hin1]
      · cases show some Ordering.gt = some Ordering.lt from h2
    · -- alnum spans of x and y compare eq
      rcases hin2 : cmpAlnum ((alnumSpan y).length + (alnumSpan z).length + 1)
          (alnumSpan y) (alnumSpan z) with _ | o2 <;> rw [hin2] at h2
      · simp at h2
      rcases o2 with _ | _ | _
      · have heq := @cmpAlnum_congr
          ((alnumSpan x).length + (alnumSpan y).length + 1)
          (alnumSpan x) (alnumSpan y) (alnumSpan z)
          ((alnumSpan x).length + (alnumSpan z).length + 1)
          ((alnumSpan y).length + (alnumSpan z).length + 1)
          (allAlnum_alnumSpan x) (allAlnum_alnumSpan y) (allAlnum_alnumSpan z)
          (by omega) (by omega) hin1
        rw [heq, hin2]
      · -- both alnum comparisons eq: compare the separator runs
        have heq := @cmpAlnum_congr
          ((alnumSpan x).length + (alnumSpan y).length + 1)
          (alnumSpan x) (alnumSpan y) (alnumSpan z)
          ((alnumSpan x).length + (alnumSpan z).length + 1)
          ((alnumSpan y).length + (alnumSpan z).length + 1)
          (allAlnum_alnumSpan x) (allAlnum_alnumSpan y) (allAlnum_alnumSpan z)
          (by omega) (by omega) hin1
        rw [heq, hin2]
        rcases hbo1 : boolCompare (!(sepSpan x).isEmpty) (!(sepSpan y).isEmpty)
            with _ | _ | _ <;> simp only [hbo1] at h1
        · rcases hbo2 : boolCompare (!(sepSpan y).isEmpty) (!(sepSpan z).isEmpty)
              with _ | _ | _ <;> simp only [hbo2] at h2
          · simp only [boolCompare_trans_lt hbo1 hbo2]
          · have hfl : (!(sepSpan y).isEmpty) = (!(sepSpan z).isEmpty) :=
              boolCompare_eq_iff.mp hbo2
            rw [← hfl, hbo1]
          · cases show some Ordering.gt = some Ordering.lt from h2
        · have hfl : (!(sepSpan x).isEmpty) = (!(sepSpan y).isEmpty) :=
            boolCompare_eq_iff.mp hbo1
          rcases hbo2 : boolCompare (!(sepSpan y).isEmpty) (!(sepSpan z).isEmpty)
              with _ | _ | _ <;> simp only [hbo2] at h2
          · rw [hfl, hbo2]
          · rw [hfl, hbo2]
            have hbound : (afterSep x).length + (afterSep z).length < d := by
              rcases not_both_empty hcxz with hne | hne
              · have := length_afterSep_lt hne
                have := length_afterSep_le z
                omega
              · have := length_afterSep_le x
                have := length_afterSep_lt hne
                omega
            exact ih hbound h1 h2
          · cases show some Ordering.gt = some Ordering.lt from h2
        · cases show some Ordering.gt = some Ordering.lt from h1
      · cases show some Ordering.gt = some Ordering.lt from h2
    · cases show some Ordering.gt = some Ordering.lt from h1

theorem alnumSpan_prefixOf (a : List Char) : alnumSpan a <+: a :=
  List.takeWhile_prefix _

theorem cmpVersionChars_total : ∀ {f : Nat} {a b : List Char},
    hasLongRun a = false → hasLongRun b = false →
    a.length + b.length < f → (cmpVersionChars f a b).isSome := by
  intro f
  induction f with
  | zero =>
    intro a b _ _ h
    omega
  | succ f ih =>
    intro a b hla hlb hf
    simp only [cmpVersionChars]
    by_cases hc : (a.isEmpty && b.isEmpty) = true
    · rw [if_pos hc]
      rfl
    · rw [if_neg hc]
      have hin := @cmpAlnum_total ((alnumSpan a).length + (alnumSpan b).length + 1)
        (alnumSpan a) (alnumSpan b) (allAlnum_alnumSpan a) (allAlnum_alnumSpan b)
        (hasLongRun_false_prefixOf (alnumSpan_prefixOf a) hla)
        (hasLongRun_false_prefixOf (alnumSpan_prefixOf b) hlb) (by omega)
      obtain ⟨o, hino⟩ := Option.isSome_iff_exists.mp hin
      rw [hino]
      rcases o with _ | _ | _
      · rfl
      · rcases boolCompare (!(sepSpan a).isEmpty) (!(sepSpan b).isEmpty) with _ | _ | _
        · rfl
        · have hbound : (afterSep a).length + (afterSep b).length < f := by
            rcases not_both_empty hc with hne | hne
            · have := length_afterSep_lt hne
              have := length_afterSep_le b
              omega
            · have := length_afterSep_le a
              have := length_afterSep_lt hne
              omega
          exact ih (hasLongRun_false_suffix (afterSep_suffix a) hla)
            (hasLongRun_false_suffix (afterSep_suffix b) hlb) hbound
        · rfl
      · rfl

/-! ## `split_parts` and `cmpVersionParts` laws -/

theorem consume_epoch_suffix {v : List Char} {eo : Option Int} {v1 : List Char}
    (h : consume_epoch v = some (eo, v1)) : v1 <:+ v := by
  unfold consume_epoch at h
  rcases hd : v.dropWhile isDigitChar with _ | ⟨c, tail⟩ <;> simp only [hd] at h
  · rw [Option.some_inj, Prod.mk.injEq] at h
    rw [← h.2]
  · have htail : tail <:+ v := by
      have h3 : (c :: tail) <:+ v := by
        rw [← hd]
        exact List.dropWhile_suffix _
      exact (List.suffix_cons c tail).trans h3
    split_ifs at h with hc h1 h2
    · rw [Option.some_inj, Prod.mk.injEq] at h
      rw [← h.2]
      exact htail
    · rw [Option.some_inj, Prod.mk.injEq] at h
      rw [← h.2]
      exact htail
    · rw [Option.some_inj, Prod.mk.injEq] at h
      rw [← h.2]

theorem consume_pkgrel_parts {v : List Char} {rest rel : List Char}
    (h : consume_pkgrel v = some (rest, rel)) : rest <+: v ∧ rel <:+ v := by
  unfold consume_pkgrel at h
  rcases hd : v.reverse.dropWhile (fun c => c != '-') with _ | ⟨c, restRev⟩ <;>
    simp only [hd] at h
  · cases h
  · split_ifs at h with hc
    · rw [Option.some_inj, Prod.mk.injEq] at h
      constructor
      · rw [← h.1]
        have hsuf : restRev <:+ v.reverse := by
          have h3 : (c :: restRev) <:+ v.reverse := by
            rw [← hd]
            exact List.dropWhile_suffix _
          exact (List.suffix_cons c restRev).trans h3
        have hsuf' : restRev.reverse.reverse <:+ v.reverse := by
          rw [List.reverse_reverse]
          exact hsuf
        exact List.reverse_suffix.mp hsuf'
      · rw [← h.2]
        have hpre : v.reverse.takeWhile (fun c => c != '-') <+: v.reverse :=
          List.takeWhile_prefix _
        have hpre' : (v.reverse.takeWhile (fun c => c != '-')).reverse.reverse <+: v.reverse := by
          rw [List.reverse_reverse]
          exact hpre
        exact List.reverse_prefix.mp hpre'

theorem split_parts_pieces {v : List Char} {p : VersionParts}
    (h : split_parts v = some p) :
    p.pkgver <:+: v ∧ ∀ r, p.pkgrel = some r → r <:+: v := by
  unfold split_parts at h
  rcases hce : consume_epoch v with _ | ⟨eo, v1⟩ <;> simp only [hce] at h
  · cases h
  · have hv1 : v1 <:+ v := consume_epoch_suffix hce
    rcases hcp : consume_pkgrel v1 with _ | ⟨rest, rel⟩ <;> simp only [hcp] at h
    · rw [Option.some_inj] at h
      subst h
      exact ⟨hv1.isInfix, fun r hr => by cases hr⟩
    · obtain ⟨hrest, hrel⟩ := consume_pkgrel_parts hcp
      rw [Option.some_inj] at h
      subst h
      constructor
      · exact hrest.isInfix.trans hv1.isInfix
      · intro r hr
        rw [Option.some_inj] at hr
        subst hr
        exact hrel.isInfix.trans hv1.isInfix

theorem digitRunVal_takeWhile_le {v : List Char} (h : hasLongRun v = false) :
    digitRunVal (v.takeWhile isDigitChar) ≤ 2147483647 := by
  have hlen := takeWhile_digit_short h
  have hall : ∀ c ∈ v.takeWhile isDigitChar, isDigitChar c = true :=
    fun c hc => List.mem_takeWhile_imp hc
  have hval := digitRunVal_bound (v.takeWhile isDigitChar) 0 hall
  have h9 : (10 : Nat) ^ (v.takeWhile isDigitChar).length ≤ 10 ^ 9 :=
    Nat.pow_le_pow_right (by omega) hlen
  have h10 : (10 : Nat) ^ 9 = 1000000000 := by norm_num
  simp only [digitRunVal]
  omega

theorem consume_epoch_isSome {v : List Char} (hl : hasLongRun v = false) :
    (consume_epoch v).isSome := by
  rcases hd : v.dropWhile isDigitChar with _ | ⟨c, tail⟩
  · simp only [consume_epoch, hd]
    rfl
  · simp only [consume_epoch, hd]
    by_cases hc : c = ':'
    · rw [if_pos hc]
      by_cases hde : (v.takeWhile isDigitChar).isEmpty = true
      · rw [if_pos hde]
        rfl
      · rw [if_neg hde, if_pos (digitRunVal_takeWhile_le hl)]
        rfl
    · rw [if_neg hc]
      rfl

theorem split_parts_isSome {v : List Char} (hl : hasLongRun v = false) :
    (split_parts v).isSome := by
  obtain ⟨⟨eo, v1⟩, hce⟩ := Option.isSome_iff_exists.mp (consume_epoch_isSome hl)
  unfold split_parts
  simp only [hce]
  rcases consume_pkgrel v1 with _ | ⟨r1, r2⟩ <;> rfl

theorem cmpVersionParts_isSome {x y : VersionParts}
    (hx : hasLongRun x.pkgver = false) (hy : hasLongRun y.pkgver = false)
    (hxr : ∀ r, x.pkgrel = some r → hasLongRun r = false)
    (hyr : ∀ r, y.pkgrel = some r → hasLongRun r = false) :
    (cmpVersionParts x y).isSome := by
  unfold cmpVersionParts
  rcases intCompare x.epoch y.epoch with _ | _ | _
  · rfl
  · obtain ⟨o, ho⟩ := Option.isSome_iff_exists.mp
      (@cmpVersionChars_total (x.pkgver.length + y.pkgver.length + 1) x.pkgver y.pkgver
        hx hy (by omega))
    rw [ho]
    rcases o with _ | _ | _
    · rfl
    · rcases hxrel : x.pkgrel with _ | rx <;> rcases hyrel : y.pkgrel with _ | ry
      · rfl
      · rfl
      · rfl
      · exact @cmpVersionChars_total (rx.length + ry.length + 1) rx ry
          (hxr rx hxrel) (hyr ry hyrel) (by omega)
    · rfl
  · rfl

theorem compare_package_version_isSome {a b : String}
    (ha : hasLongRun a.data = false) (hb : hasLongRun b.data = false) :
    (compare_package_version a b).isSome := by
  unfold compare_package_version
  obtain ⟨pa, hpa⟩ := Option.isSome_iff_exists.mp (split_parts_isSome ha)
  obtain ⟨pb, hpb⟩ := Option.isSome_iff_exists.mp (split_parts_isSome hb)
  rw [hpa, hpb]
  obtain ⟨hva, hra⟩ := split_parts_pieces hpa
  obtain ⟨hvb, hrb⟩ := split_parts_pieces hpb
  show (cmpVersionParts pa pb).isSome = true
  exact cmpVersionParts_isSome (hasLongRun_false_of_infixOf hva ha)
    (hasLongRun_false_of_infixOf hvb hb)
    (fun r hr => hasLongRun_false_of_infixOf (hra r hr) ha)
    (fun r hr => hasLongRun_false_of_infixOf (hrb r hr) hb)

theorem cmpVersionParts_swap (x y : VersionParts) :
    cmpVersionParts y x = (cmpVersionParts x y).map Ordering.swap := by
  unfold cmpVersionParts
  rw [intCompare_swap x.epoch y.epoch]
  rcases intCompare x.epoch y.epoch with _ | _ | _
  · rfl
  · show (match cmpVersionChars (y.pkgver.length + x.pkgver.length + 1) y.pkgver x.pkgver with
      | none => none
      | some Ordering.lt => some Ordering.lt
      | some Ordering.gt => some Ordering.gt
      | some Ordering.eq =>
        match y.pkgrel, x.pkgrel with
        | none, none => some Ordering.eq
        | none, some _ => some Ordering.lt
        | some _, none => some Ordering.gt
        | some ra, some rb => cmpVersionChars (ra.length + rb.length + 1) ra rb)
      = Option.map Ordering.swap
        (match cmpVersionChars (x.pkgver.length + y.pkgver.length + 1) x.pkgver y.pkgver with
        | none => none
        | some Ordering.lt => some Ordering.lt
        | some Ordering.gt => some Ordering.gt
        | some Ordering.eq =>
          match x.pkgrel, y.pkgrel with
          | none, none => some Ordering.eq
          | none, some _ => some Ordering.lt
          | some _, none => some Ordering.gt
          | some ra, some rb => cmpVersionChars (ra.length + rb.length + 1) ra rb)
    rw [show y.pkgver.length + x.pkgver.length
        = x.pkgver.length + y.pkgver.length from Nat.add_comm _ _,
      cmpVersionChars_swap (x.pkgver.length + y.pkgver.length + 1) y.pkgver x.pkgver]
    rcases cmpVersionChars (x.pkgver.length + y.pkgver.length + 1) x.pkgver y.pkgver
        with _ | o
    · rfl
    · rcases o with _ | _ | _
      · rfl
      · rcases x.pkgrel with _ | rx <;> rcases y.pkgrel with _ | ry
        · rfl
        · rfl
        · rfl
        · show cmpVersionChars (ry.length + rx.length + 1) ry rx
            = Option.map Ordering.swap (cmpVersionChars (rx.length + ry.length + 1) rx ry)
          rw [show ry.length + rx.length = rx.length + ry.length from Nat.add_comm _ _]
          exact cmpVersionChars_swap _ _ _
      · rfl
  · rfl

theorem cmpVersionParts_trans_lt {x y z : VersionParts}
    (h1 : cmpVersionParts x y = some Ordering.lt)
    (h2 : cmpVersionParts y z = some Ordering.lt) :
    cmpVersionParts x z = some Ordering.lt := by
  unfold cmpVersionParts at h1 h2 ⊢
  rcases hio1 : intCompare x.epoch y.epoch with _ | _ | _ <;> simp only [hio1] at h1
  · rcases hio2 : intCompare y.epoch z.epoch with _ | _ | _ <;> simp only [hio2] at h2
    · simp only [intCompare_lt_iff.mpr
        (lt_trans (intCompare_lt_iff.mp hio1) (intCompare_lt_iff.mp hio2))]
    · simp only [intCompare_lt_iff.mpr
        (intCompare_eq_iff.mp hio2 ▸ intCompare_lt_iff.mp hio1)]
    · simp at h2
  · have hexy := intCompare_eq_iff.mp hio1
    rcases hio2 : intCompare y.epoch z.epoch with _ | _ | _ <;> simp only [hio2] at h2
    · simp only [intCompare_lt_iff.mpr (hexy ▸ intCompare_lt_iff.mp hio2)]
    · have hexz : intCompare x.epoch z.epoch = .eq :=
        intCompare_eq_iff.mpr (hexy.trans (intCompare_eq_iff.mp hio2))
      simp only [hexz]
      rcases hv1 : cmpVersionChars (x.pkgver.length + y.pkgver.length + 1)
          x.pkgver y.pkgver with _ | o1 <;> rw [hv1] at h1
      · simp at h1
      rcases o1 with _ | _ | _
      · rcases hv2 : cmpVersionChars (y.pkgver.length + z.pkgver.length + 1)
            y.pkgver z.pkgver with _ | o2 <;> rw [hv2] at h2
        · simp at h2
        rcases o2 with _ | _ | _
        · rw [@cmpVersionChars_trans_lt (x.pkgver.length + y.pkgver.length + 1)
            x.pkgver y.pkgver z.pkgver (y.pkgver.length + z.pkgver.length + 1)
            (x.pkgver.length + z.pkgver.length + 1) (by omega) hv1 hv2]
        · rw [← @cmpVersionChars_congr_right (y.pkgver.length + z.pkgver.length + 1)
            y.pkgver z.pkgver x.pkgver (x.pkgver.length + y.pkgver.length + 1)
            (x.pkgver.length + z.pkgver.length + 1) (by omega) (by omega) hv2, hv1]
        · simp at h2
      · rcases hv2 : cmpVersionChars (y.pkgver.length + z.pkgver.length + 1)
            y.pkgver z.pkgver with _ | o2 <;> rw [hv2] at h2
        · simp at h2
        rcases o2 with _ | _ | _
        · rw [@cmpVersionChars_congr (x.pkgver.length + y.pkgver.length + 1)
            x.pkgver y.pkgver z.pkgver (x.pkgver.length + z.pkgver.length + 1)
            (y.pkgver.length + z.pkgver.length + 1) (by omega) (by omega) hv1, hv2]
        · rw [@cmpVersionChars_congr (x.pkgver.length + y.pkgver.length + 1)
            x.pkgver y.pkgver z.pkgver (x.pkgver.length + z.pkgver.length + 1)
            (y.pkgver.length + z.pkgver.length + 1) (by omega) (by omega) hv1, hv2]
          rcases hxr : x.pkgrel with _ | rx <;> rw [hxr] at h1 <;>
            rcases hyr : y.pkgrel with _ | ry <;> rw [hyr] at h1 h2
          · simp at h1
          · rcases hzr : z.pkgrel with _ | rz <;> rw [hzr] at h2
            simp at h2
          · simp at h1
          · rcases hzr : z.pkgrel with _ | rz <;> rw [hzr] at h2
            · simp at h2
            · exact @cmpVersionChars_trans_lt (rx.length + ry.length + 1) rx ry rz
                (ry.length + rz.length + 1) (rx.length + rz.length + 1)
                (by omega) h1 h2
        · simp at h2
      · simp at h1
    · simp at h2
  · simp at h1

/-! ## Top-level comparison laws -/

theorem compare_version_string_swap (a b : String) :
    compare_version_string a b = (compare_version_string b a).map Ordering.swap := by
  unfold compare_version_string
  rw [show b.length + a.length = a.length + b.length from Nat.add_comm _ _]
  exact cmpVersionChars_swap _ _ _

theorem compare_version_string_trans_lt {a b c : String}
    (h1 : compare_version_string a b = some Ordering.lt)
    (h2 : compare_version_string b c = some Ordering.lt) :
    compare_version_string a c = some Ordering.lt := by
  unfold compare_version_string at h1 h2 ⊢
  have ha : a.length = a.data.length := rfl
  have hc : c.length = c.data.length := rfl
  exact @cmpVersionChars_trans_lt (a.length + b.length + 1) a.data b.data c.data
    (b.length + c.length + 1) (a.length + c.length + 1) (by omega) h1 h2

theorem compare_version_string_isSome {a b : String}
    (ha : hasLongRun a.data = false) (hb : hasLongRun b.data = false) :
    (compare_version_string a b).isSome := by
  unfold compare_version_string
  have h1 : a.length = a.data.length := rfl
  have h2 : b.length = b.data.length := rfl
  exact cmpVersionChars_total ha hb (by omega)

theorem compare_package_version_swap (a b : String) :
    compare_package_version b a = (compare_package_version a b).map Ordering.swap := by
  unfold compare_package_version
  rcases split_parts a.data with _ | pa <;> rcases split_parts b.data with _ | pb
  · rfl
  · rfl
  · rfl
  · exact cmpVersionParts_swap pa pb

theorem compare_package_version_trans_lt {a b c : String}
    (h1 : compare_package_version a b = some Ordering.lt)
    (h2 : compare_package_version b c = some Ordering.lt) :
    compare_package_version a c = some Ordering.lt := by
  unfold compare_package_version at h1 h2 ⊢
  rcases hsa : split_parts a.data with _ | pa <;>
    rcases hsb : split_parts b.data with _ | pb <;>
    simp only [hsa, hsb] at h1
  · cases h1
  · cases h1
  · cases h1
  · rcases hsc : split_parts c.data with _ | pc <;> simp only [hsb, hsc] at h2
    · cases h2
    · simp only [hsa, hsc]
      exact cmpVersionParts_trans_lt h1 h2

theorem intCompare_gt_iff {a b : Int} : intCompare a b = .gt ↔ b < a := by
  unfold intCompare
  split_ifs with h1 h2 <;> simp <;> omega

/-! ## String comparison laws for the BTreeSet model -/

theorem strCompare_eq_iff {x y : String} : strCompare x y = .eq ↔ x = y := by
  unfold strCompare
  rw [chListCompare_eq_iff]
  constructor
  · intro h
    cases x with
    | mk dx =>
      cases y with
      | mk dy =>
        have h' : dx = dy := h
        rw [h']
  · intro h
    rw [h]

theorem strCompare_refl (x : String) : strCompare x x = .eq :=
  strCompare_eq_iff.mpr rfl

theorem strCompare_swap (x y : String) : strCompare y x = (strCompare x y).swap :=
  chListCompare_swap x.data y.data

theorem strLt_trans {x y z : String} (h1 : strLt x y) (h2 : strLt y z) : strLt x z :=
  chListCompare_trans_lt h1 h2

theorem strLt_irrefl (x : String) : ¬strLt x x := by
  intro h
  rw [strLt, strCompare_refl] at h
  cases h

theorem strLt_asymm {x y : String} (h : strLt x y) : ¬strLt y x := fun h' =>
  strLt_irrefl x (strLt_trans h h')

theorem strLt_of_gt {x y : String} (h : strCompare x y = .gt) : strLt y x := by
  rw [strLt, strCompare_swap x y, h]
  rfl

/-! ## `insertSorted` (BTreeSet insertion) -/

theorem mem_insertSorted {n x : String} : ∀ {l : List String},
    n ∈ insertSorted x l ↔ n = x ∨ n ∈ l
  | [] => by simp [insertSorted]
  | y :: ys => by
    unfold insertSorted
    rcases hc : strCompare x y with _ | _ | _
    · simp [List.mem_cons]
    · have hxy : x = y := strCompare_eq_iff.mp hc
      subst hxy
      simp [List.mem_cons]
    · simp only [List.mem_cons, mem_insertSorted]
      tauto

theorem length_insertSorted_le (x : String) : ∀ (l : List String),
    (insertSorted x l).length ≤ l.length + 1
  | [] => by simp [insertSorted]
  | y :: ys => by
    unfold insertSorted
    rcases strCompare x y with _ | _ | _
    · simp
    · simp
    · have := length_insertSorted_le x ys
      simp only [List.length_cons]
      omega

theorem pairwise_insertSorted {x : String} : ∀ {l : List String},
    l.Pairwise strLt → (insertSorted x l).Pairwise strLt
  | [], _ => by simp [insertSorted]
  | y :: ys, h => by
    rw [List.pairwise_cons] at h
    unfold insertSorted
    rcases hc : strCompare x y with _ | _ | _
    · rw [List.pairwise_cons]
      refine ⟨?_, List.pairwise_cons.mpr h⟩
      intro z hz
      rcases List.mem_cons.mp hz with hz | hz
    -- z = y or z ∈ ys; both follow from x < y (transitively)
      · rw [hz]
        exact hc
      · exact strLt_trans hc (h.1 z hz)
    · exact List.pairwise_cons.mpr h
    · rw [List.pairwise_cons]
      refine ⟨?_, pairwise_insertSorted h.2⟩
      intro z hz
      rcases mem_insertSorted.mp hz with hz | hz
      · rw [hz]
        exact strLt_of_gt hc
      · exact h.1 z hz

/-- Two strictly sorted lists with the same members are equal: the
extensionality of the `BTreeSet` model. -/
theorem sorted_ext : ∀ {l₁ l₂ : List String}, l₁.Pairwise strLt → l₂.Pairwise strLt →
    (∀ n, n ∈ l₁ ↔ n ∈ l₂) → l₁ = l₂
  | [], [], _, _, _ => rfl
  | [], b :: t₂, _, _, hm => by
    have := (hm b).mpr (List.mem_cons_self b t₂)
    cases this
  | a :: t₁, [], _, _, hm => by
    have := (hm a).mp (List.mem_cons_self a t₁)
    cases this
  | a :: t₁, b :: t₂, h₁, h₂, hm => by
    rw [List.pairwise_cons] at h₁ h₂
    have hab : a = b := by
      rcases List.mem_cons.mp ((hm a).mp (List.mem_cons_self a t₁)) with h | h
      · exact h
      · rcases List.mem_cons.mp ((hm b).mpr (List.mem_cons_self b t₂)) with h' | h'
        · exact h'.symm
        · exact absurd (strLt_trans (h₁.1 b h') (h₂.1 a h)) (strLt_irrefl a)
    subst hab
    have hmt : ∀ n, n ∈ t₁ ↔ n ∈ t₂ := by
      intro n
      constructor
      · intro hn
        rcases List.mem_cons.mp ((hm n).mp (List.mem_cons.mpr (Or.inr hn))) with h | h
        · exact absurd (h ▸ h₁.1 n hn) (strLt_irrefl a)
        · exact h
      · intro hn
        rcases List.mem_cons.mp ((hm n).mpr (List.mem_cons.mpr (Or.inr hn))) with h | h
        · exact absurd (h ▸ h₂.1 n hn) (strLt_irrefl a)
        · exact h
    rw [sorted_ext h₁.2 h₂.2 hmt]

/-- Inserting two elements commutes on sorted lists. -/
theorem insertSorted_comm {a b : String} {l : List String} (h : l.Pairwise strLt) :
    insertSorted a (insertSorted b l) = insertSorted b (insertSorted a l) := by
  refine sorted_ext (pairwise_insertSorted (pairwise_insertSorted h))
    (pairwise_insertSorted (pairwise_insertSorted h)) ?_
  intro n
  simp only [mem_insertSorted]
  tauto

/-! ## Folded insertions: the three fold shapes of the resolver -/

theorem mem_foldInsert {β : Type} (key : β → String) :
    ∀ (l : List β) (acc : List String) {n : String},
      n ∈ l.foldl (fun a x => insertSorted (key x) a) acc ↔
        n ∈ acc ∨ ∃ x ∈ l, key x = n
  | [], acc => by simp
  | b :: t, acc => by
    simp only [List.foldl_cons]
    rw [mem_foldInsert key t (insertSorted (key b) acc)]
    simp only [mem_insertSorted, List.exists_mem_cons_iff]
    constructor
    · rintro ((h | h) | h)
      · exact Or.inr (Or.inl h.symm)
      · exact Or.inl h
      · exact Or.inr (Or.inr h)
    · rintro (h | h | h)
      · exact Or.inl (Or.inr h)
      · exact Or.inl (Or.inl h.symm)
      · exact Or.inr h

theorem pairwise_foldInsert {β : Type} (key : β → String) :
    ∀ (l : List β) {acc : List String}, acc.Pairwise strLt →
      (l.foldl (fun a x => insertSorted (key x) a) acc).Pairwise strLt
  | [], _, h => h
  | b :: t, acc, h => by
    simp only [List.foldl_cons]
    exact pairwise_foldInsert key t (pairwise_insertSorted h)

theorem length_foldInsert {β : Type} (key : β → String) :
    ∀ (l : List β) (acc : List String),
      (l.foldl (fun a x => insertSorted (key x) a) acc).length ≤ acc.length + l.length
  | [], acc => by simp
  | b :: t, acc => by
    simp only [List.foldl_cons, List.length_cons]
    have h1 := length_foldInsert key t (insertSorted (key b) acc)
    have h2 := length_insertSorted_le (key b) acc
    omega

theorem mem_foldInsertIf {β : Type} (key : β → String) (Q : β → Bool) :
    ∀ (l : List β) (acc : List String) {n : String},
      n ∈ l.foldl (fun a x => if Q x then insertSorted (key x) a else a) acc ↔
        n ∈ acc ∨ ∃ x ∈ l, Q x = true ∧ key x = n
  | [], acc => by simp
  | b :: t, acc => by
    simp only [List.foldl_cons]
    by_cases hq : Q b = true
    · rw [if_pos hq, mem_foldInsertIf key Q t (insertSorted (key b) acc)]
      simp only [mem_insertSorted, List.exists_mem_cons_iff]
      constructor
      · rintro ((h | h) | h)
        · exact Or.inr (Or.inl ⟨hq, h.symm⟩)
        · exact Or.inl h
        · exact Or.inr (Or.inr h)
      · rintro (h | ⟨_, h⟩ | h)
        · exact Or.inl (Or.inr h)
        · exact Or.inl (Or.inl h.symm)
        · exact Or.inr h
    · rw [if_neg hq, mem_foldInsertIf key Q t acc]
      simp only [List.exists_mem_cons_iff]
      constructor
      · rintro (h | h)
        · exact Or.inl h
        · exact Or.inr (Or.inr h)
      · rintro (h | ⟨hqb, _⟩ | h)
        · exact Or.inl h
        · exact absurd hqb hq
        · exact Or.inr h

theorem pairwise_foldInsertIf {β : Type} (key : β → String) (Q : β → Bool) :
    ∀ (l : List β) {acc : List String}, acc.Pairwise strLt →
      (l.foldl (fun a x => if Q x then insertSorted (key x) a else a) acc).Pairwise strLt
  | [], _, h => h
  | b :: t, acc, h => by
    simp only [List.foldl_cons]
    by_cases hq : Q b = true
    · rw [if_pos hq]
      exact pairwise_foldInsertIf key Q t (pairwise_insertSorted h)
    · rw [if_neg hq]
      exact pairwise_foldInsertIf key Q t h

theorem mem_foldInsertSkip {β : Type} (key : β → String) (P : β → Prop)
    [DecidablePred P] :
    ∀ (l : List β) (acc : List String) {n : String},
      n ∈ l.foldl (fun a x => if P x then a else insertSorted (key x) a) acc ↔
        n ∈ acc ∨ ∃ x ∈ l, ¬P x ∧ key x = n
  | [], acc => by simp
  | b :: t, acc => by
    simp only [List.foldl_cons]
    by_cases hp : P b
    · rw [if_pos hp, mem_foldInsertSkip key P t acc]
      simp only [List.exists_mem_cons_iff]
      constructor
      · rintro (h | h)
        · exact Or.inl h
        · exact Or.inr (Or.inr h)
      · rintro (h | ⟨hnp, _⟩ | h)
        · exact Or.inl h
        · exact absurd hp hnp
        · exact Or.inr h
    · rw [if_neg hp, mem_foldInsertSkip key P t (insertSorted (key b) acc)]
      simp only [mem_insertSorted, List.exists_mem_cons_iff]
      constructor
      · rintro ((h | h) | h)
        · exact Or.inr (Or.inl ⟨hp, h.symm⟩)
        · exact Or.inl h
        · exact Or.inr (Or.inr h)
      · rintro (h | ⟨_, h⟩ | h)
        · exact Or.inl (Or.inr h)
        · exact Or.inl (Or.inl h.symm)
        · exact Or.inr h

theorem pairwise_foldInsertSkip {β : Type} (key : β → String) (P : β → Prop)
    [DecidablePred P] :
    ∀ (l : List β) {acc : List String}, acc.Pairwise strLt →
      (l.foldl (fun a x => if P x then a else insertSorted (key x) a) acc).Pairwise strLt
  | [], _, h => h
  | b :: t, acc, h => by
    simp only [List.foldl_cons]
    by_cases hp : P b
    · rw [if_pos hp]
      exact pairwise_foldInsertSkip key P t h
    · rw [if_neg hp]
      exact pairwise_foldInsertSkip key P t (pairwise_insertSorted h)

theorem length_foldInsertSkip {β : Type} (key : β → String) (P : β → Prop)
    [DecidablePred P] :
    ∀ (l : List β) (acc : List String),
      (l.foldl (fun a x => if P x then a else insertSorted (key x) a) acc).length ≤
        acc.length + l.length
  | [], acc => by simp
  | b :: t, acc => by
    simp only [List.foldl_cons, List.length_cons]
    by_cases hp : P b
    · rw [if_pos hp]
      have := length_foldInsertSkip key P t acc
      omega
    · rw [if_neg hp]
      have h1 := length_foldInsertSkip key P t (insertSorted (key b) acc)
      have h2 := length_insertSorted_le (key b) acc
      omega

/-! ## The name index and the provider index -/

theorem getPackage_eq_some {pkgs : List DatabasePackage} {name : String}
    {p : DatabasePackage} (h : getPackage pkgs name = some p) :
    p ∈ pkgs ∧ p.name = name := by
  unfold getPackage at h
  refine ⟨List.mem_of_find?_eq_some h, ?_⟩
  have := List.find?_some h
  simpa using this

theorem getPackage_isSome {pkgs : List DatabasePackage} {p : DatabasePackage}
    (hp : p ∈ pkgs) : (getPackage pkgs p.name).isSome := by
  unfold getPackage
  rw [List.find?_isSome]
  exact ⟨p, hp, by simp⟩

theorem getPackage_isSome_of_name {pkgs : List DatabasePackage} {q : String}
    (h : ∃ p ∈ pkgs, p.name = q) : (getPackage pkgs q).isSome := by
  obtain ⟨p, hp, hname⟩ := h
  rw [← hname]
  exact getPackage_isSome hp

theorem name_inj_of_nodup : ∀ {pkgs : List DatabasePackage},
    (pkgs.map DatabasePackage.name).Nodup →
    ∀ {p p' : DatabasePackage}, p ∈ pkgs → p' ∈ pkgs → p.name = p'.name → p = p' := by
  intro pkgs
  induction pkgs with
  | nil =>
    intro _ p p' hp _ _
    cases hp
  | cons a t ih =>
    intro hnd p p' hp hp' heq
    rw [List.map_cons, List.nodup_cons] at hnd
    rcases List.mem_cons.mp hp with h1 | h1 <;> rcases List.mem_cons.mp hp' with h2 | h2
    · rw [h1, h2]
    · exfalso
      apply hnd.1
      rw [show a.name = p'.name from h1 ▸ heq]
      exact List.mem_map_of_mem DatabasePackage.name h2
    · exfalso
      apply hnd.1
      rw [show a.name = p.name from (h2 ▸ heq).symm]
      exact List.mem_map_of_mem DatabasePackage.name h1
    · exact ih hnd.2 h1 h2 heq

theorem mem_providersOf {pkgs : List DatabasePackage} {t n : String} :
    n ∈ providersOf pkgs t ↔ ∃ p ∈ pkgs, providesTarget p t = true ∧ p.name = n := by
  unfold providersOf
  rw [mem_foldInsertIf DatabasePackage.name (fun p => providesTarget p t) pkgs []]
  simp

theorem pairwise_providersOf (pkgs : List DatabasePackage) (t : String) :
    (providersOf pkgs t).Pairwise strLt := by
  unfold providersOf
  exact pairwise_foldInsertIf DatabasePackage.name (fun p => providesTarget p t) pkgs
    List.Pairwise.nil

theorem mem_provUniverse {pkgs : List DatabasePackage} {n : String} :
    n ∈ provUniverse pkgs ↔
      ∃ p ∈ pkgs, n = p.name ∨ n ∈ p.provides.map Provides.name := by
  unfold provUniverse
  have hgen : ∀ (l : List DatabasePackage) (acc : List String),
      n ∈ l.foldl
        (fun acc p =>
          (p.provides.map Provides.name).foldl (fun a m => insertSorted m a)
            (insertSorted p.name acc)) acc ↔
        n ∈ acc ∨ ∃ p ∈ l, n = p.name ∨ n ∈ p.provides.map Provides.name := by
    intro l
    induction l with
    | nil => simp
    | cons b t ih =>
      intro acc
      simp only [List.foldl_cons]
      rw [ih]
      rw [mem_foldInsert (fun (m : String) => m) (b.provides.map Provides.name)
        (insertSorted b.name acc)]
      simp only [mem_insertSorted, List.exists_mem_cons_iff, exists_eq_right]
      constructor
      · rintro (((h | h) | h) | h)
        · exact Or.inr (Or.inl (Or.inl h))
        · exact Or.inl h
        · exact Or.inr (Or.inl (Or.inr h))
        · exact Or.inr (Or.inr h)
      · rintro (h | (h | h) | h)
        · exact Or.inl (Or.inl (Or.inr h))
        · exact Or.inl (Or.inl (Or.inl h))
        · exact Or.inl (Or.inr h)
        · exact Or.inr h
  rw [hgen pkgs []]
  simp

theorem providesTarget_mem_provUniverse {pkgs : List DatabasePackage}
    {p : DatabasePackage} {t : String} (hp : p ∈ pkgs)
    (h : providesTarget p t = true) : t ∈ provUniverse pkgs := by
  unfold providesTarget at h
  rw [Bool.or_eq_true] at h
  refine mem_provUniverse.mpr ⟨p, hp, ?_⟩
  rcases h with h | h
  · exact Or.inl (beq_iff_eq.mp h).symm
  · rw [List.any_eq_true] at h
    obtain ⟨pr, hpr, hname⟩ := h
    exact Or.inr (List.mem_map.mpr ⟨pr, hpr, beq_iff_eq.mp hname⟩)

theorem foldl_depends_ge : ∀ (l : List DatabasePackage) (a : Nat),
    a ≤ l.foldl (fun n q => n + q.depends.length) a
  | [], a => le_refl a
  | _ :: t, a => le_trans (Nat.le_add_right a _) (foldl_depends_ge t _)

theorem depends_le_totalDepends {pkgs : List DatabasePackage} {p : DatabasePackage}
    (hp : p ∈ pkgs) : p.depends.length ≤ totalDepends pkgs := by
  unfold totalDepends
  have hgen : ∀ (l : List DatabasePackage) (acc : Nat), p ∈ l →
      acc + p.depends.length ≤ l.foldl (fun n q => n + q.depends.length) acc := by
    intro l
    induction l with
    | nil =>
      intro acc h
      cases h
    | cons b t ih =>
      intro acc h
      simp only [List.foldl_cons]
      rcases List.mem_cons.mp h with h | h
      · rw [h]
        exact foldl_depends_ge t (acc + b.depends.length)
      · have := ih (acc + b.depends.length) h
        omega
  have := hgen pkgs 0 hp
  omega

/-! ## `resolve_target` -/

theorem resolve_target_ok_mem {pkgs : List DatabasePackage} {t : String}
    {p : DatabasePackage} (h : resolve_target pkgs t = .ok p) : p ∈ pkgs := by
  unfold resolve_target at h
  rcases hg : getPackage pkgs t with _ | p' <;> simp only [hg] at h
  · rcases hpr : providersOf pkgs t with _ | ⟨q, qs⟩ <;> simp only [hpr] at h
    · cases h
    · rcases hq : getPackage pkgs q with _ | p'' <;> simp only [hq] at h
      · cases h
      · obtain rfl := Except.ok.inj h
        exact (getPackage_eq_some hq).1
  · obtain rfl := Except.ok.inj h
    exact (getPackage_eq_some hg).1

theorem resolve_target_ok_provides {pkgs : List DatabasePackage}
    (hnd : (pkgs.map DatabasePackage.name).Nodup) {t : String} {p : DatabasePackage}
    (h : resolve_target pkgs t = .ok p) : providesTarget p t = true := by
  unfold resolve_target at h
  rcases hg : getPackage pkgs t with _ | p' <;> simp only [hg] at h
  · rcases hpr : providersOf pkgs t with _ | ⟨q, qs⟩ <;> simp only [hpr] at h
    · cases h
    · rcases hq : getPackage pkgs q with _ | p'' <;> simp only [hq] at h
      · cases h
      · have hpp := Except.ok.inj h
        have hqm : q ∈ providersOf pkgs t := by
          rw [hpr]
          exact List.mem_cons_self q qs
        obtain ⟨p₀, hp₀, hprov, hname⟩ := mem_providersOf.mp hqm
        obtain ⟨hmem, hname'⟩ := getPackage_eq_some hq
        have heq : p'' = p₀ := name_inj_of_nodup hnd hmem hp₀ (hname'.trans hname.symm)
        rw [← hpp, heq]
        exact hprov
  · obtain rfl := Except.ok.inj h
    have hname := (getPackage_eq_some hg).2
    unfold providesTarget
    rw [Bool.or_eq_true]
    exact Or.inl (beq_iff_eq.mpr hname)

theorem resolve_target_error {pkgs : List DatabasePackage} {t : String}
    {e : ResolveError} (h : resolve_target pkgs t = .error e) :
    e = .noProviderFound t ∧ getPackage pkgs t = none ∧ providersOf pkgs t = [] := by
  unfold resolve_target at h
  rcases hg : getPackage pkgs t with _ | p' <;> simp only [hg] at h
  · rcases hpr : providersOf pkgs t with _ | ⟨q, qs⟩ <;> simp only [hpr] at h
    · exact ⟨(Except.error.inj h).symm, rfl, rfl⟩
    · rcases hq : getPackage pkgs q with _ | p'' <;> simp only [hq] at h
      · exfalso
        have hqm : q ∈ providersOf pkgs t := by
          rw [hpr]
          exact List.mem_cons_self q qs
        obtain ⟨p₀, hp₀, _, hname⟩ := mem_providersOf.mp hqm
        have hs := getPackage_isSome_of_name ⟨p₀, hp₀, hname⟩
        rw [hq] at hs
        cases hs
      · cases h
  · cases h

theorem resolve_target_sat {pkgs : List DatabasePackage} {t : String}
    {p : DatabasePackage} (h : resolve_target pkgs t = .ok p) :
    (getPackage pkgs t).isSome ∨ providersOf pkgs t ≠ [] := by
  unfold resolve_target at h
  rcases hg : getPackage pkgs t with _ | p' <;> simp only [hg] at h
  · rcases hpr : providersOf pkgs t with _ | ⟨q, qs⟩ <;> simp only [hpr] at h
    · cases h
    · right
      simp
  · left
    rfl

/-! ## `add_package` and `enqueueDepends` -/

theorem mem_selected_add_package {st : ResolverState} {p : DatabasePackage} {n : String} :
    n ∈ (add_package st p).selected_packages ↔ n = p.name ∨ n ∈ st.selected_packages :=
  mem_insertSorted

theorem mem_provided_add_package {st : ResolverState} {p : DatabasePackage} {n : String} :
    n ∈ (add_package st p).provided_targets ↔
      n = p.name ∨ n ∈ p.provides.map Provides.name ∨ n ∈ st.provided_targets := by
  show n ∈ (p.provides.map Provides.name).foldl (fun acc m => insertSorted m acc)
      (insertSorted p.name st.provided_targets) ↔ _
  rw [mem_foldInsert (fun (m : String) => m) (p.provides.map Provides.name)
    (insertSorted p.name st.provided_targets)]
  simp only [mem_insertSorted, exists_eq_right]
  tauto

theorem pairwise_selected_add_package {st : ResolverState} {p : DatabasePackage}
    (h : st.selected_packages.Pairwise strLt) :
    (add_package st p).selected_packages.Pairwise strLt :=
  pairwise_insertSorted h

theorem pairwise_provided_add_package {st : ResolverState} {p : DatabasePackage}
    (h : st.provided_targets.Pairwise strLt) :
    (add_package st p).provided_targets.Pairwise strLt :=
  pairwise_foldInsert (fun m => m) (p.provides.map Provides.name)
    (pairwise_insertSorted h)

theorem mem_enqueueDepends {st : ResolverState} {deps : List Dependency}
    {q : List String} {n : String} :
    n ∈ enqueueDepends st deps q ↔
      n ∈ q ∨ ∃ d ∈ deps, d.name ∉ st.provided_targets ∧ d.name = n :=
  mem_foldInsertSkip Dependency.name (fun d => d.name ∈ st.provided_targets) deps q

theorem length_enqueueDepends (st : ResolverState) (deps : List Dependency)
    (q : List String) : (enqueueDepends st deps q).length ≤ q.length + deps.length :=
  length_foldInsertSkip Dependency.name (fun d => d.name ∈ st.provided_targets) deps q

theorem pairwise_enqueueDepends {st : ResolverState} {deps : List Dependency}
    {q : List String} (h : q.Pairwise strLt) :
    (enqueueDepends st deps q).Pairwise strLt :=
  pairwise_foldInsertSkip Dependency.name (fun d => d.name ∈ st.provided_targets) deps h

/-! ## Filter-length lemmas for the termination measure -/

theorem length_filter_mono {α : Type} (P Q : α → Bool)
    (himp : ∀ x, Q x = true → P x = true) :
    ∀ (l : List α), (l.filter Q).length ≤ (l.filter P).length
  | [] => le_refl 0
  | a :: t => by
    simp only [List.filter_cons]
    by_cases hq : Q a = true
    · rw [if_pos hq, if_pos (himp a hq)]
      simp only [List.length_cons]
      exact Nat.succ_le_succ (length_filter_mono P Q himp t)
    · rw [if_neg hq]
      by_cases hp : P a = true
      · rw [if_pos hp]
        exact le_trans (length_filter_mono P Q himp t) (Nat.le_succ _)
      · rw [if_neg hp]
        exact length_filter_mono P Q himp t

theorem length_filter_strict {α : Type} (P Q : α → Bool)
    (himp : ∀ x, Q x = true → P x = true) :
    ∀ (l : List α) (t : α), t ∈ l → P t = true → Q t = false →
      (l.filter Q).length < (l.filter P).length
  | [], t, ht, _, _ => absurd ht (List.not_mem_nil t)
  | a :: l, t, ht, hP, hQ => by
    simp only [List.filter_cons]
    rcases List.mem_cons.mp ht with h | h
    · subst h
      rw [if_neg (by simp [hQ]), if_pos hP]
      simp only [List.length_cons]
      have := length_filter_mono P Q himp l
      omega
    · by_cases hq : Q a = true
      · rw [if_pos hq, if_pos (himp a hq)]
        simp only [List.length_cons]
        exact Nat.succ_lt_succ (length_filter_strict P Q himp l t h hP hQ)
      · rw [if_neg hq]
        by_cases hp : P a = true
        · rw [if_pos hp]
          simp only [List.length_cons]
          have := length_filter_strict P Q himp l t h hP hQ
          omega
        · rw [if_neg hp]
          exact length_filter_strict P Q himp l t h hP hQ

/-! ## Termination of the drain loop -/

theorem target_mem_provided_add {st : ResolverState} {p : DatabasePackage} {t : String}
    (h : providesTarget p t = true) : t ∈ (add_package st p).provided_targets := by
  unfold providesTarget at h
  rw [Bool.or_eq_true] at h
  rcases h with h | h
  · exact mem_provided_add_package.mpr (Or.inl (beq_iff_eq.mp h).symm)
  · rw [List.any_eq_true] at h
    obtain ⟨pr, hpr, hname⟩ := h
    exact mem_provided_add_package.mpr (Or.inr (Or.inl
      (List.mem_map.mpr ⟨pr, hpr, beq_iff_eq.mp hname⟩)))

theorem unprovidedCount_select_lt {pkgs : List DatabasePackage} {st : ResolverState}
    {p : DatabasePackage} {t : String}
    (hnd : (pkgs.map DatabasePackage.name).Nodup)
    (hok : resolve_target pkgs t = .ok p) (hnp : t ∉ st.provided_targets) :
    unprovidedCount pkgs (add_package st p) < unprovidedCount pkgs st := by
  unfold unprovidedCount
  refine length_filter_strict _ _ ?_ (provUniverse pkgs) t ?_ ?_ ?_
  · intro n hn
    simp only [Bool.not_eq_true', decide_eq_false_iff_not] at hn ⊢
    intro hmem
    exact hn (mem_provided_add_package.mpr (Or.inr (Or.inr hmem)))
  · exact providesTarget_mem_provUniverse (resolve_target_ok_mem hok)
      (resolve_target_ok_provides hnd hok)
  · simp only [Bool.not_eq_true', decide_eq_false_iff_not]
    exact hnp
  · simp only [Bool.not_eq_false', decide_eq_true_eq]
    exact target_mem_provided_add (resolve_target_ok_provides hnd hok)

theorem resolveLoop_isSome {pkgs : List DatabasePackage}
    (hnd : (pkgs.map DatabasePackage.name).Nodup) :
    ∀ (fuel : Nat) (queue : List String) (st : ResolverState),
      unprovidedCount pkgs st * (totalDepends pkgs + 1) + queue.length < fuel →
      (resolveLoop pkgs fuel queue st).isSome := by
  intro fuel
  induction fuel with
  | zero =>
    intro queue st h
    exact absurd h (Nat.not_lt_zero _)
  | succ f ih =>
    intro queue st h
    rcases queue with _ | ⟨target, rest⟩
    · rfl
    · simp only [resolveLoop]
      by_cases hmem : target ∈ st.provided_targets
      · rw [if_pos hmem]
        apply ih
        simp only [List.length_cons] at h
        omega
      · rw [if_neg hmem]
        rcases hrt : resolve_target pkgs target with e | p <;> simp only [hrt]
        · rfl
        · apply ih
          have hsel : unprovidedCount pkgs (add_package st p) + 1 ≤
              unprovidedCount pkgs st := unprovidedCount_select_lt hnd hrt hmem
          have hql := length_enqueueDepends (add_package st p) p.depends rest
          have hdep := depends_le_totalDepends (resolve_target_ok_mem hrt)
          have hmul : unprovidedCount pkgs (add_package st p) * (totalDepends pkgs + 1)
              + (totalDepends pkgs + 1) ≤
              unprovidedCount pkgs st * (totalDepends pkgs + 1) :=
            calc unprovidedCount pkgs (add_package st p) * (totalDepends pkgs + 1)
                + (totalDepends pkgs + 1)
                = (unprovidedCount pkgs (add_package st p) + 1) * (totalDepends pkgs + 1) :=
                  (Nat.succ_mul _ _).symm
              _ ≤ unprovidedCount pkgs st * (totalDepends pkgs + 1) :=
                  Nat.mul_le_mul_right _ hsel
          simp only [List.length_cons] at h
          omega

theorem resolve_isSome {pkgs : List DatabasePackage} {targets : List String}
    (hnd : (pkgs.map DatabasePackage.name).Nodup) :
    (resolve pkgs targets).isSome := by
  unfold resolve
  apply resolveLoop_isSome hnd
  unfold resolveFuel
  have h1 : unprovidedCount pkgs (initResolve pkgs targets).2 ≤
      (provUniverse pkgs).length := List.length_filter_le _ _
  have h2 : unprovidedCount pkgs (initResolve pkgs targets).2 * (totalDepends pkgs + 1) ≤
      (provUniverse pkgs).length * (totalDepends pkgs + 1) :=
    Nat.mul_le_mul_right _ h1
  omega

/-! ## Classification of resolver outcomes -/

theorem resolveLoop_error {pkgs : List DatabasePackage} :
    ∀ (fuel : Nat) (queue : List String) (st : ResolverState) (e : ResolveError),
      resolveLoop pkgs fuel queue st = some (.error e) →
      ∃ u, e = .noProviderFound u ∧ getPackage pkgs u = none ∧ providersOf pkgs u = []
  | 0, _, _, _, h => by cases h
  | f + 1, queue, st, e, h => by
    rcases queue with _ | ⟨target, rest⟩
    · simp only [resolveLoop] at h
      simp at h
    · simp only [resolveLoop] at h
      by_cases hmem : target ∈ st.provided_targets
      · rw [if_pos hmem] at h
        exact resolveLoop_error f rest st e h
      · rw [if_neg hmem] at h
        rcases hrt : resolve_target pkgs target with e' | p <;> simp only [hrt] at h
        · have he := resolve_target_error hrt
          obtain rfl : e' = e := Except.error.inj (Option.some_inj.mp h)
          exact ⟨target, he.1, he.2.1, he.2.2⟩
        · exact resolveLoop_error f _ _ e h

theorem add_package_provInv {pkgs : List DatabasePackage} {st : ResolverState}
    {p : DatabasePackage} (hp : p ∈ pkgs)
    (hinv : ∀ n ∈ st.provided_targets, ∃ q ∈ pkgs, providesTarget q n = true) :
    ∀ n ∈ (add_package st p).provided_targets, ∃ q ∈ pkgs, providesTarget q n = true := by
  intro n hn
  rcases mem_provided_add_package.mp hn with h | h | h
  · refine ⟨p, hp, ?_⟩
    unfold providesTarget
    rw [Bool.or_eq_true]
    exact Or.inl (beq_iff_eq.mpr h.symm)
  · obtain ⟨pr, hpr, hname⟩ := List.mem_map.mp h
    refine ⟨p, hp, ?_⟩
    unfold providesTarget
    rw [Bool.or_eq_true]
    exact Or.inr (List.any_eq_true.mpr ⟨pr, hpr, beq_iff_eq.mpr hname⟩)
  · exact hinv n h

theorem sat_of_provided {pkgs : List DatabasePackage} {st : ResolverState}
    (hinv : ∀ n ∈ st.provided_targets, ∃ q ∈ pkgs, providesTarget q n = true)
    {t : String} (ht : t ∈ st.provided_targets) :
    (getPackage pkgs t).isSome ∨ providersOf pkgs t ≠ [] := by
  obtain ⟨q, hq, hprov⟩ := hinv t ht
  right
  intro hnil
  have hm : q.name ∈ providersOf pkgs t := mem_providersOf.mpr ⟨q, hq, hprov, rfl⟩
  rw [hnil] at hm
  cases hm

theorem resolveLoop_ok_sat {pkgs : List DatabasePackage} :
    ∀ (fuel : Nat) (queue : List String) (st : ResolverState) (sel : List String),
      (∀ n ∈ st.provided_targets, ∃ q ∈ pkgs, providesTarget q n = true) →
      resolveLoop pkgs fuel queue st = some (.ok sel) →
      ∀ t ∈ queue, (getPackage pkgs t).isSome ∨ providersOf pkgs t ≠ []
  | 0, _, _, _, _, h => by cases h
  | f + 1, queue, st, sel, hinv, h => by
    rcases queue with _ | ⟨target, rest⟩
    · intro t ht
      cases ht
    · simp only [resolveLoop] at h
      by_cases hmem : target ∈ st.provided_targets
      · rw [if_pos hmem] at h
        intro t ht
        rcases List.mem_cons.mp ht with h1 | h1
        · rw [h1]
          exact sat_of_provided hinv hmem
        · exact resolveLoop_ok_sat f rest st sel hinv h t h1
      · rw [if_neg hmem] at h
        rcases hrt : resolve_target pkgs target with e' | p <;> simp only [hrt] at h
        · simp at h
        · intro t ht
          rcases List.mem_cons.mp ht with h1 | h1
          · rw [h1]
            exact resolve_target_sat hrt
          · have hm : t ∈ enqueueDepends (add_package st p) p.depends rest :=
              mem_enqueueDepends.mpr (Or.inl h1)
            exact resolveLoop_ok_sat f _ _ sel
              (add_package_provInv (resolve_target_ok_mem hrt) hinv) h t hm

theorem resolveLoop_ok_selected {pkgs : List DatabasePackage} :
    ∀ (fuel : Nat) (queue : List String) (st : ResolverState) (sel : List String),
      (∀ n ∈ st.selected_packages, (getPackage pkgs n).isSome) →
      resolveLoop pkgs fuel queue st = some (.ok sel) →
      ∀ n ∈ sel, (getPackage pkgs n).isSome
  | 0, _, _, _, _, h => by cases h
  | f + 1, queue, st, sel, hsel, h => by
    rcases queue with _ | ⟨target, rest⟩
    · simp only [resolveLoop] at h
      obtain rfl : st.selected_packages = sel := Except.ok.inj (Option.some_inj.mp h)
      exact hsel
    · simp only [resolveLoop] at h
      by_cases hmem : target ∈ st.provided_targets
      · rw [if_pos hmem] at h
        exact resolveLoop_ok_selected f rest st sel hsel h
      · rw [if_neg hmem] at h
        rcases hrt : resolve_target pkgs target with e' | p <;> simp only [hrt] at h
        · simp at h
        · refine resolveLoop_ok_selected f _ _ sel ?_ h
          intro n hn
          rcases mem_selected_add_package.mp hn with h1 | h1
          · rw [h1]
            exact getPackage_isSome (resolve_target_ok_mem hrt)
          · exact hsel n h1

/-! ## Phase-1 (`initResolve`) invariants -/

theorem initResolve_provInv (pkgs : List DatabasePackage) (targets : List String) :
    ∀ n ∈ (initResolve pkgs targets).2.provided_targets,
      ∃ q ∈ pkgs, providesTarget q n = true := by
  unfold initResolve
  have hgen : ∀ (l : List String) (acc : List String × ResolverState),
      (∀ n ∈ acc.2.provided_targets, ∃ q ∈ pkgs, providesTarget q n = true) →
      ∀ n ∈ (l.foldl (initStep pkgs) acc).2.provided_targets,
        ∃ q ∈ pkgs, providesTarget q n = true := by
    intro l
    induction l with
    | nil =>
      intro acc h
      exact h
    | cons b t ih =>
      intro acc hacc
      simp only [List.foldl_cons]
      apply ih
      unfold initStep
      rcases hg : getPackage pkgs b with _ | p <;> simp only [hg]
      · exact hacc
      · exact add_package_provInv (getPackage_eq_some hg).1 hacc
  exact hgen targets ([], ⟨[], []⟩) (by intro n hn; cases hn)

theorem initResolve_selected (pkgs : List DatabasePackage) (targets : List String) :
    ∀ n ∈ (initResolve pkgs targets).2.selected_packages, (getPackage pkgs n).isSome := by
  unfold initResolve
  have hgen : ∀ (l : List String) (acc : List String × ResolverState),
      (∀ n ∈ acc.2.selected_packages, (getPackage pkgs n).isSome) →
      ∀ n ∈ (l.foldl (initStep pkgs) acc).2.selected_packages,
        (getPackage pkgs n).isSome := by
    intro l
    induction l with
    | nil =>
      intro acc h
      exact h
    | cons b t ih =>
      intro acc hacc
      simp only [List.foldl_cons]
      apply ih
      unfold initStep
      rcases hg : getPackage pkgs b with _ | p <;> simp only [hg]
      · exact hacc
      · intro n hn
        rcases mem_selected_add_package.mp hn with h1 | h1
        · rw [h1]
          exact getPackage_isSome (getPackage_eq_some hg).1
        · exact hacc n h1
  exact hgen targets ([], ⟨[], []⟩) (by intro n hn; cases hn)

theorem initResolve_mem_queue {pkgs : List DatabasePackage} {targets : List String}
    {t : String} (ht : t ∈ targets) (hg : getPackage pkgs t = none) :
    t ∈ (initResolve pkgs targets).1 := by
  unfold initResolve
  have hgen : ∀ (l : List String) (acc : List String × ResolverState),
      t ∈ l ∨ t ∈ acc.1 →
      t ∈ (l.foldl (initStep pkgs) acc).1 := by
    intro l
    induction l with
    | nil =>
      intro acc h
      rcases h with h | h
      · cases h
      · exact h
    | cons b t' ih =>
      intro acc hin
      simp only [List.foldl_cons]
      apply ih
      unfold initStep
      rcases hin with hin | hin
      · rcases List.mem_cons.mp hin with h1 | h1
        · right
          rw [h1] at hg ⊢
          rw [hg]
          exact mem_insertSorted.mpr (Or.inl rfl)
        · exact Or.inl h1
      · right
        rcases hgb : getPackage pkgs b with _ | p <;> simp only [hgb]
        · exact mem_insertSorted.mpr (Or.inr hin)
        · exact (mem_foldInsert Dependency.name p.depends acc.1).mpr (Or.inl hin)
  exact hgen targets ([], ⟨[], []⟩) (Or.inl ht)

/-! ## Top-level resolver facts -/

theorem resolve_error {pkgs : List DatabasePackage} {targets : List String}
    {e : ResolveError} (h : resolve pkgs targets = some (.error e)) :
    ∃ u, e = .noProviderFound u ∧ getPackage pkgs u = none ∧ providersOf pkgs u = [] := by
  unfold resolve at h
  exact resolveLoop_error _ _ _ e h

theorem resolve_ok_selected {pkgs : List DatabasePackage} {targets : List String}
    {sel : List String} (h : resolve pkgs targets = some (.ok sel)) :
    ∀ n ∈ sel, (getPackage pkgs n).isSome := by
  unfold resolve at h
  exact resolveLoop_ok_selected _ _ _ sel (initResolve_selected pkgs targets) h

theorem resolve_ok_targets_sat {pkgs : List DatabasePackage} {targets : List String}
    {sel : List String} (h : resolve pkgs targets = some (.ok sel)) :
    ∀ t ∈ targets, (getPackage pkgs t).isSome ∨ providersOf pkgs t ≠ [] := by
  intro t ht
  rcases hg : getPackage pkgs t with _ | p
  · rw [← hg]
    unfold resolve at h
    exact resolveLoop_ok_sat _ _ _ sel (initResolve_provInv pkgs targets) h t
      (initResolve_mem_queue ht hg)
  · left
    rfl

/-! ## Satisfiability of the dependencies of selected packages

Every package the resolver selects is the result of a successful name-index
lookup of its own name (`resolve_target_ok_lookup`), and the loop keeps every
`depends` name of every selected package either already provided, or pending
in the queue, or already known satisfiable; on success the queue is drained,
so every transitively required dependency name is satisfiable. -/

theorem resolve_target_ok_lookup {pkgs : List DatabasePackage} {t : String}
    {p : DatabasePackage} (h : resolve_target pkgs t = .ok p) :
    getPackage pkgs p.name = some p := by
  unfold resolve_target at h
  rcases hg : getPackage pkgs t with _ | p' <;> simp only [hg] at h
  · rcases hpr : providersOf pkgs t with _ | ⟨q, qs⟩ <;> simp only [hpr] at h
    · cases h
    · rcases hq : getPackage pkgs q with _ | p'' <;> simp only [hq] at h
      · cases h
      · obtain rfl := Except.ok.inj h
        rw [(getPackage_eq_some hq).2]
        exact hq
  · obtain rfl := Except.ok.inj h
    rw [(getPackage_eq_some hg).2]
    exact hg

theorem resolveLoop_ok_deps {pkgs : List DatabasePackage} :
    ∀ (fuel : Nat) (queue : List String) (st : ResolverState) (sel : List String),
      (∀ n ∈ st.provided_targets, ∃ q ∈ pkgs, providesTarget q n = true) →
      (∀ n ∈ st.selected_packages, ∀ p, getPackage pkgs n = some p →
        ∀ d ∈ p.depends, d.name ∈ st.provided_targets ∨ d.name ∈ queue ∨
          (getPackage pkgs d.name).isSome ∨ providersOf pkgs d.name ≠ []) →
      resolveLoop pkgs fuel queue st = some (.ok sel) →
      ∀ n ∈ sel, ∀ p, getPackage pkgs n = some p →
        ∀ d ∈ p.depends,
          (getPackage pkgs d.name).isSome ∨ providersOf pkgs d.name ≠ []
  | 0, _, _, _, _, _, h => by cases h
  | f + 1, queue, st, sel, hprov, hdeps, h => by
    rcases queue with _ | ⟨target, rest⟩
    · simp only [resolveLoop] at h
      obtain rfl : st.selected_packages = sel := Except.ok.inj (Option.some_inj.mp h)
      intro n hn p hp d hd
      rcases hdeps n hn p hp d hd with h1 | h1 | h1
      · exact sat_of_provided hprov h1
      · cases h1
      · exact h1
    · simp only [resolveLoop] at h
      by_cases hmem : target ∈ st.provided_targets
      · rw [if_pos hmem] at h
        refine resolveLoop_ok_deps f rest st sel hprov ?_ h
        intro n hn p hp d hd
        rcases hdeps n hn p hp d hd with h1 | h1 | h1
        · exact Or.inl h1
        · rcases List.mem_cons.mp h1 with h2 | h2
          · exact Or.inl (h2 ▸ hmem)
          · exact Or.inr (Or.inl h2)
        · exact Or.inr (Or.inr h1)
      · rw [if_neg hmem] at h
        rcases hrt : resolve_target pkgs target with e' | p <;> simp only [hrt] at h
        · simp at h
        · refine resolveLoop_ok_deps f _ _ sel
            (add_package_provInv (resolve_target_ok_mem hrt) hprov) ?_ h
          intro n hn p' hp' d hd
          rcases mem_selected_add_package.mp hn with h1 | h1
          · have hlook := resolve_target_ok_lookup hrt
            rw [h1] at hp'
            obtain rfl : p = p' := Option.some_inj.mp (hlook.symm.trans hp')
            by_cases hdm : d.name ∈ (add_package st p).provided_targets
            · exact Or.inl hdm
            · exact Or.inr (Or.inl (mem_enqueueDepends.mpr
                (Or.inr ⟨d, hd, hdm, rfl⟩)))
          · rcases hdeps n h1 p' hp' d hd with h2 | h2 | h2
            · exact Or.inl (mem_provided_add_package.mpr (Or.inr (Or.inr h2)))
            · rcases List.mem_cons.mp h2 with h3 | h3
              · exact Or.inr (Or.inr (h3 ▸ resolve_target_sat hrt))
              · exact Or.inr (Or.inl (mem_enqueueDepends.mpr (Or.inl h3)))
            · exact Or.inr (Or.inr h2)

theorem initResolve_deps (pkgs : List DatabasePackage) (targets : List String) :
    ∀ n ∈ (initResolve pkgs targets).2.selected_packages, ∀ p,
      getPackage pkgs n = some p →
      ∀ d ∈ p.depends, d.name ∈ (initResolve pkgs targets).2.provided_targets ∨
        d.name ∈ (initResolve pkgs targets).1 ∨
        (getPackage pkgs d.name).isSome ∨ providersOf pkgs d.name ≠ [] := by
  unfold initResolve
  have hgen : ∀ (l : List String) (acc : List String × ResolverState),
      (∀ n ∈ acc.2.selected_packages, ∀ p, getPackage pkgs n = some p →
        ∀ d ∈ p.depends, d.name ∈ acc.2.provided_targets ∨ d.name ∈ acc.1 ∨
          (getPackage pkgs d.name).isSome ∨ providersOf pkgs d.name ≠ []) →
      ∀ n ∈ (l.foldl (initStep pkgs) acc).2.selected_packages, ∀ p,
        getPackage pkgs n = some p →
        ∀ d ∈ p.depends,
          d.name ∈ (l.foldl (initStep pkgs) acc).2.provided_targets ∨
          d.name ∈ (l.foldl (initStep pkgs) acc).1 ∨
          (getPackage pkgs d.name).isSome ∨ providersOf pkgs d.name ≠ [] := by
    intro l
    induction l with
    | nil =>
      intro acc h
      exact h
    | cons b t ih =>
      intro acc hacc
      simp only [List.foldl_cons]
      apply ih
      unfold initStep
      rcases hg : getPackage pkgs b with _ | p <;> simp only [hg]
      · intro n hn p' hp' d hd
        rcases hacc n hn p' hp' d hd with h1 | h1 | h1
        · exact Or.inl h1
        · exact Or.inr (Or.inl (mem_insertSorted.mpr (Or.inr h1)))
        · exact Or.inr (Or.inr h1)
      · intro n hn p' hp' d hd
        rcases mem_selected_add_package.mp hn with h1 | h1
        · have hlook : getPackage pkgs p.name = some p := by
            rw [(getPackage_eq_some hg).2]
            exact hg
          rw [h1] at hp'
          obtain rfl : p = p' := Option.some_inj.mp (hlook.symm.trans hp')
          exact Or.inr (Or.inl ((mem_foldInsert Dependency.name p.depends acc.1).mpr
            (Or.inr ⟨d, hd, rfl⟩)))
        · rcases hacc n h1 p' hp' d hd with h2 | h2 | h2
          · exact Or.inl (mem_provided_add_package.mpr (Or.inr (Or.inr h2)))
          · exact Or.inr (Or.inl ((mem_foldInsert Dependency.name p.depends acc.1).mpr
              (Or.inl h2)))
          · exact Or.inr (Or.inr h2)
  exact hgen targets ([], ⟨[], []⟩) (by intro n hn; cases hn)

theorem resolve_ok_deps_sat {pkgs : List DatabasePackage} {targets sel : List String}
    (h : resolve pkgs targets = some (.ok sel)) :
    ∀ n ∈ sel, ∀ p, getPackage pkgs n = some p →
      ∀ d ∈ p.depends,
        (getPackage pkgs d.name).isSome ∨ providersOf pkgs d.name ≠ [] := by
  unfold resolve at h
  exact resolveLoop_ok_deps _ _ _ sel (initResolve_provInv pkgs targets)
    (initResolve_deps pkgs targets) h

/-! ## Permutation invariance of the requested-target list -/

theorem resolverState_ext {s t : ResolverState}
    (h1 : s.selected_packages = t.selected_packages)
    (h2 : s.provided_targets = t.provided_targets) : s = t := by
  cases s with
  | mk a b =>
    cases t with
    | mk c d =>
      have h1' : a = c := h1
      have h2' : b = d := h2
      rw [h1', h2']

theorem add_package_comm {st : ResolverState} {p q : DatabasePackage}
    (hsel : st.selected_packages.Pairwise strLt)
    (hprov : st.provided_targets.Pairwise strLt) :
    add_package (add_package st p) q = add_package (add_package st q) p := by
  refine resolverState_ext ?_ ?_
  · show insertSorted q.name (insertSorted p.name st.selected_packages) =
      insertSorted p.name (insertSorted q.name st.selected_packages)
    exact insertSorted_comm hsel
  · refine sorted_ext (pairwise_provided_add_package (pairwise_provided_add_package hprov))
      (pairwise_provided_add_package (pairwise_provided_add_package hprov)) ?_
    intro n
    simp only [mem_provided_add_package]
    tauto

theorem initResolve_perm {pkgs : List DatabasePackage} {t₁ t₂ : List String}
    (hp : t₁.Perm t₂) : initResolve pkgs t₁ = initResolve pkgs t₂ := by
  have hstep : ∀ (acc : List String × ResolverState) (a : String),
      acc.1.Pairwise strLt → acc.2.selected_packages.Pairwise strLt →
      acc.2.provided_targets.Pairwise strLt →
      (initStep pkgs acc a).1.Pairwise strLt ∧
        (initStep pkgs acc a).2.selected_packages.Pairwise strLt ∧
        (initStep pkgs acc a).2.provided_targets.Pairwise strLt := by
    intro acc a h1 h2 h3
    unfold initStep
    rcases hg : getPackage pkgs a with _ | p <;> simp only [hg]
    · exact ⟨pairwise_insertSorted h1, h2, h3⟩
    · exact ⟨pairwise_foldInsert Dependency.name p.depends h1,
        pairwise_selected_add_package h2, pairwise_provided_add_package h3⟩
  have hcomm : ∀ (acc : List String × ResolverState) (a b : String),
      acc.1.Pairwise strLt → acc.2.selected_packages.Pairwise strLt →
      acc.2.provided_targets.Pairwise strLt →
      initStep pkgs (initStep pkgs acc a) b = initStep pkgs (initStep pkgs acc b) a := by
    intro acc a b h1 h2 h3
    unfold initStep
    rcases hga : getPackage pkgs a with _ | pa <;>
      rcases hgb : getPackage pkgs b with _ | pb <;> simp only [hga, hgb]
    · rw [insertSorted_comm h1]
    · have hq : pb.depends.foldl (fun q d => insertSorted d.name q) (insertSorted a acc.1) =
          insertSorted a (pb.depends.foldl (fun q d => insertSorted d.name q) acc.1) := by
        refine sorted_ext
          (pairwise_foldInsert Dependency.name pb.depends (pairwise_insertSorted h1))
          (pairwise_insertSorted (pairwise_foldInsert Dependency.name pb.depends h1)) ?_
        intro n
        simp only [mem_foldInsert, mem_insertSorted]
        constructor
        · rintro ((h | h) | h)
          · exact Or.inl h
          · exact Or.inr (Or.inl h)
          · exact Or.inr (Or.inr h)
        · rintro (h | h | h)
          · exact Or.inl (Or.inl h)
          · exact Or.inl (Or.inr h)
          · exact Or.inr h
      rw [hq]
    · have hq : insertSorted b (pa.depends.foldl (fun q d => insertSorted d.name q) acc.1) =
          pa.depends.foldl (fun q d => insertSorted d.name q) (insertSorted b acc.1) := by
        refine sorted_ext
          (pairwise_insertSorted (pairwise_foldInsert Dependency.name pa.depends h1))
          (pairwise_foldInsert Dependency.name pa.depends (pairwise_insertSorted h1)) ?_
        intro n
        simp only [mem_foldInsert, mem_insertSorted]
        constructor
        · rintro (h | h | h)
          · exact Or.inl (Or.inl h)
          · exact Or.inl (Or.inr h)
          · exact Or.inr h
        · rintro ((h | h) | h)
          · exact Or.inl h
          · exact Or.inr (Or.inl h)
          · exact Or.inr (Or.inr h)
      rw [hq]
    · have hq : pb.depends.foldl (fun q d => insertSorted d.name q)
            (pa.depends.foldl (fun q d => insertSorted d.name q) acc.1) =
          pa.depends.foldl (fun q d => insertSorted d.name q)
            (pb.depends.foldl (fun q d => insertSorted d.name q) acc.1) := by
        refine sorted_ext
          (pairwise_foldInsert Dependency.name pb.depends
            (pairwise_foldInsert Dependency.name pa.depends h1))
          (pairwise_foldInsert Dependency.name pa.depends
            (pairwise_foldInsert Dependency.name pb.depends h1)) ?_
        intro n
        simp only [mem_foldInsert]
        constructor
        · rintro ((h | h) | h)
          · exact Or.inl (Or.inl h)
          · exact Or.inr h
          · exact Or.inl (Or.inr h)
        · rintro ((h | h) | h)
          · exact Or.inl (Or.inl h)
          · exact Or.inr h
          · exact Or.inl (Or.inr h)
      rw [hq, add_package_comm h2 h3]
  have hmain : ∀ {l₁ l₂ : List String}, l₁.Perm l₂ →
      ∀ (acc : List String × ResolverState), acc.1.Pairwise strLt →
        acc.2.selected_packages.Pairwise strLt → acc.2.provided_targets.Pairwise strLt →
        l₁.foldl (initStep pkgs) acc = l₂.foldl (initStep pkgs) acc := by
    intro l₁ l₂ hperm
    induction hperm with
    | nil =>
      intro acc _ _ _
      rfl
    | cons x hp ih =>
      intro acc h1 h2 h3
      simp only [List.foldl_cons]
      obtain ⟨hs1, hs2, hs3⟩ := hstep acc x h1 h2 h3
      exact ih _ hs1 hs2 hs3
    | swap x y l =>
      intro acc h1 h2 h3
      simp only [List.foldl_cons]
      rw [hcomm acc y x h1 h2 h3]
    | trans hp1 hp2 ih1 ih2 =>
      intro acc h1 h2 h3
      rw [ih1 acc h1 h2 h3, ih2 acc h1 h2 h3]
  exact hmain hp ([], ⟨[], []⟩) List.Pairwise.nil List.Pairwise.nil List.Pairwise.nil

theorem resolve_perm {pkgs : List DatabasePackage} {t₁ t₂ : List String}
    (hp : t₁.Perm t₂) : resolve pkgs t₁ = resolve pkgs t₂ := by
  unfold resolve
  rw [initResolve_perm hp]

/-! ## The provider tie-break (C4 support) -/

theorem providersOf_head_min {pkgs : List DatabasePackage} {t q : String}
    {qs : List String} (h : providersOf pkgs t = q :: qs) :
    ∀ r ∈ providersOf pkgs t, q = r ∨ strLt q r := by
  have hp := pairwise_providersOf pkgs t
  rw [h] at hp ⊢
  rw [List.pairwise_cons] at hp
  intro r hr
  rcases List.mem_cons.mp hr with h1 | h1
  · exact Or.inl h1.symm
  · exact Or.inr (hp.1 r h1)

theorem resolve_target_provider_choice {pkgs : List DatabasePackage} {t q : String}
    {qs : List String} (hg : getPackage pkgs t = none)
    (hpr : providersOf pkgs t = q :: qs) :
    ∃ p, resolve_target pkgs t = .ok p ∧ p.name = q := by
  have hqm : q ∈ providersOf pkgs t := by
    rw [hpr]
    exact List.mem_cons_self q qs
  obtain ⟨p₀, hp₀, _, hname⟩ := mem_providersOf.mp hqm
  have hs := getPackage_isSome_of_name ⟨p₀, hp₀, hname⟩
  rcases hq : getPackage pkgs q with _ | p
  · rw [hq] at hs
    cases hs
  · refine ⟨p, ?_, (getPackage_eq_some hq).2⟩
    unfold resolve_target
    simp only [hg, hpr, hq]

/-! ## Dependency token parsing (C8 support) -/

theorem parse_constraint_ge (rest : List Char) :
    parse_constraint ('>' :: '=' :: rest) = some (.greaterEqual, rest) := rfl

theorem parse_constraint_le (rest : List Char) :
    parse_constraint ('<' :: '=' :: rest) = some (.lessEqual, rest) := rfl

theorem parse_constraint_eqeq (rest : List Char) :
    parse_constraint ('=' :: '=' :: rest) = some (.equal, rest) := rfl

theorem parse_constraint_gt {c : Char} (rest : List Char) (h : c ≠ '=') :
    parse_constraint ('>' :: c :: rest) = some (.greater, c :: rest) := by
  unfold parse_constraint
  split
  all_goals simp_all

theorem parse_constraint_lt {c : Char} (rest : List Char) (h : c ≠ '=') :
    parse_constraint ('<' :: c :: rest) = some (.less, c :: rest) := by
  unfold parse_constraint
  split
  all_goals simp_all

theorem parse_constraint_eq {c : Char} (rest : List Char) (h : c ≠ '=') :
    parse_constraint ('=' :: c :: rest) = some (.equal, c :: rest) := by
  unfold parse_constraint
  split
  all_goals simp_all

theorem findConstraintSplit_none : ∀ {l : List Char},
    l.all (fun c => !is_constraint_char c) = true → findConstraintSplit l = none
  | [], _ => rfl
  | c :: rest, h => by
    rw [List.all_cons, Bool.and_eq_true] at h
    have hc : is_constraint_char c = false := by
      have := h.1
      revert this
      cases is_constraint_char c <;> simp
    unfold findConstraintSplit
    rw [if_neg (by rw [hc]; simp), findConstraintSplit_none h.2]

theorem findConstraintSplit_some : ∀ {l pre post : List Char},
    findConstraintSplit l = some (pre, post) →
    l = pre ++ post ∧ pre.all (fun c => !is_constraint_char c) = true ∧
      ∃ c rest, post = c :: rest ∧ is_constraint_char c = true
  | [], _, _, h => by cases h
  | c :: rest, pre, post, h => by
    unfold findConstraintSplit at h
    by_cases hc : is_constraint_char c = true
    · rw [if_pos hc] at h
      rw [Option.some_inj, Prod.mk.injEq] at h
      obtain ⟨h1, h2⟩ := h
      subst h1
      subst h2
      exact ⟨rfl, rfl, c, rest, rfl, hc⟩
    · rw [if_neg hc] at h
      rcases hf : findConstraintSplit rest with _ | ⟨pre', post'⟩ <;> simp only [hf] at h
      · cases h
      · rw [Option.some_inj, Prod.mk.injEq] at h
        obtain ⟨h1, h2⟩ := h
        obtain ⟨hl, hall, c', rest', hpost, hc'⟩ := findConstraintSplit_some hf
        subst h2
        have hcf : is_constraint_char c = false := by
          revert hc
          cases is_constraint_char c <;> simp
        refine ⟨?_, ?_, c', rest', hpost, hc'⟩
        · rw [← h1, List.cons_append, ← hl]
        · rw [← h1, List.all_cons, Bool.and_eq_true]
          exact ⟨by rw [hcf]; rfl, hall⟩

theorem parse_depends_no_constraint {blob : String}
    (h : blob.data.all (fun c => !is_constraint_char c) = true) :
    parse_depends blob = (blob, none) := by
  unfold parse_depends
  rw [findConstraintSplit_none h]

/-! ## Component rules of the three-tuple comparison (C7 support) -/

theorem cmpVersionParts_epoch_gt {x y : VersionParts} (h : y.epoch < x.epoch) :
    cmpVersionParts x y = some .gt := by
  unfold cmpVersionParts
  rw [intCompare_gt_iff.mpr h]

theorem compare_package_version_tuple {a b : String} {pa pb : VersionParts}
    (hpa : split_parts a.data = some pa) (hpb : split_parts b.data = some pb) :
    compare_package_version a b = cmpVersionParts pa pb := by
  unfold compare_package_version
  simp only [hpa, hpb]

theorem cmpVersionParts_pkgver {x y : VersionParts} (he : x.epoch = y.epoch)
    {o : Ordering} (ho : o ≠ .eq)
    (h : cmpVersionChars (x.pkgver.length + y.pkgver.length + 1) x.pkgver y.pkgver
      = some o) :
    cmpVersionParts x y = some o := by
  unfold cmpVersionParts
  simp only [intCompare_eq_iff.mpr he, h]
  rcases o with _ | _ | _
  · rfl
  · exact absurd rfl ho
  · rfl

theorem cmpVersionParts_pkgrel_none_lt {x y : VersionParts} (he : x.epoch = y.epoch)
    (hv : cmpVersionChars (x.pkgver.length + y.pkgver.length + 1) x.pkgver y.pkgver
      = some .eq) (hx : x.pkgrel = none) {r : List Char} (hy : y.pkgrel = some r) :
    cmpVersionParts x y = some .lt := by
  unfold cmpVersionParts
  simp only [intCompare_eq_iff.mpr he, hv, hx, hy]

theorem cmpVersionParts_pkgrel_both {x y : VersionParts} (he : x.epoch = y.epoch)
    (hv : cmpVersionChars (x.pkgver.length + y.pkgver.length + 1) x.pkgver y.pkgver
      = some .eq) {rx ry : List Char} (hx : x.pkgrel = some rx)
    (hy : y.pkgrel = some ry) :
    cmpVersionParts x y = cmpVersionChars (rx.length + ry.length + 1) rx ry := by
  unfold cmpVersionParts
  simp only [intCompare_eq_iff.mpr he, hv, hx, hy]

/-! # Claim theorems -/

/-- C1: resolver closure correctness.  For the index of a package `A` depending on
`B` and a package `B` providing `libb`, `resolve ["A"]` succeeds and returns exactly
the set of `A` and `B`, and `resolve ["libb"]` succeeds and returns exactly `B`;
and `add_package` adds exactly the package name to the selected set, and the package
name plus every name of its `provides` list to the provided set. -/
theorem C1_resolver_closure :
    resolve [⟨"A", [⟨"B", none⟩], []⟩, ⟨"B", [], [⟨"libb", none⟩]⟩] ["A"]
        = some (.ok ["A", "B"]) ∧
    resolve [⟨"A", [⟨"B", none⟩], []⟩, ⟨"B", [], [⟨"libb", none⟩]⟩] ["libb"]
        = some (.ok ["B"]) ∧
    ∀ (st : ResolverState) (p : DatabasePackage) (n : String),
      (n ∈ (add_package st p).selected_packages ↔
        n = p.name ∨ n ∈ st.selected_packages) ∧
      (n ∈ (add_package st p).provided_targets ↔
        n = p.name ∨ n ∈ p.provides.map Provides.name ∨ n ∈ st.provided_targets) :=
  ⟨rfl, rfl, fun _ _ _ => ⟨mem_selected_add_package, mem_provided_add_package⟩⟩

/-- C2: resolver termination.  For every index whose package names are distinct (the
keys of a name index are unique), `resolve` terminates — the drain loop returns
within the provable fuel bound — including on cyclic `depends`; in the two-package
mutual cycle, `resolve ["A"]` terminates and returns both packages. -/
theorem C2_cycle_termination :
    (∀ (pkgs : List DatabasePackage) (targets : List String),
      (pkgs.map DatabasePackage.name).Nodup → (resolve pkgs targets).isSome) ∧
    resolve [⟨"A", [⟨"B", none⟩], []⟩, ⟨"B", [⟨"A", none⟩], []⟩] ["A"]
      = some (.ok ["A", "B"]) :=
  ⟨fun _ _ hnd => resolve_isSome hnd, rfl⟩

theorem C2_cycle_termination_witness :
    (([⟨"A", [⟨"B", none⟩], []⟩, ⟨"B", [⟨"A", none⟩], []⟩] :
        List DatabasePackage).map DatabasePackage.name).Nodup ∧
    (resolve [⟨"A", [⟨"B", none⟩], []⟩, ⟨"B", [⟨"A", none⟩], []⟩] ["A"]).isSome :=
  ⟨by decide,
    C2_cycle_termination.1 [⟨"A", [⟨"B", none⟩], []⟩, ⟨"B", [⟨"A", none⟩], []⟩]
      ["A"] (by decide)⟩

/-- C3: unsatisfiable target fails.  Requesting `doesnotexist` against the
two-package index errors with `NoProviderFound "doesnotexist"`; in general every
error of `resolve` is `NoProviderFound u` for a (requested or transitively
required) target `u` that is neither a name-index key nor has any provider — no
result set is returned in that case; on success every requested target has a
concrete package or a non-empty provider set; and on success every `depends`
name of every selected package — i.e. every transitively required target — has
a concrete package or a non-empty provider set, so resolution cannot succeed
past an unsatisfiable requested or transitively required name. -/
theorem C3_unsatisfiable_target_fails :
    resolve [⟨"A", [⟨"B", none⟩], []⟩, ⟨"B", [], [⟨"libb", none⟩]⟩] ["doesnotexist"]
      = some (.error (.noProviderFound "doesnotexist")) ∧
    (∀ (pkgs : List DatabasePackage) (targets : List String) (e : ResolveError),
      resolve pkgs targets = some (.error e) →
      ∃ u, e = .noProviderFound u ∧ getPackage pkgs u = none ∧
        providersOf pkgs u = []) ∧
    (∀ (pkgs : List DatabasePackage) (targets sel : List String),
      resolve pkgs targets = some (.ok sel) →
      ∀ t ∈ targets, (getPackage pkgs t).isSome ∨ providersOf pkgs t ≠ []) ∧
    (∀ (pkgs : List DatabasePackage) (targets sel : List String),
      resolve pkgs targets = some (.ok sel) →
      ∀ n ∈ sel, ∀ p, getPackage pkgs n = some p →
        ∀ d ∈ p.depends,
          (getPackage pkgs d.name).isSome ∨ providersOf pkgs d.name ≠ []) :=
  ⟨rfl, fun _ _ _ h => resolve_error h, fun _ _ _ h => resolve_ok_targets_sat h,
    fun _ _ _ h => resolve_ok_deps_sat h⟩

theorem C3_unsatisfiable_target_fails_witness :
    ∃ u, ResolveError.noProviderFound "doesnotexist" = .noProviderFound u ∧
      getPackage [⟨"A", [⟨"B", none⟩], []⟩, ⟨"B", [], [⟨"libb", none⟩]⟩] u = none ∧
      providersOf [⟨"A", [⟨"B", none⟩], []⟩, ⟨"B", [], [⟨"libb", none⟩]⟩] u = [] :=
  C3_unsatisfiable_target_fails.2.1
    [⟨"A", [⟨"B", none⟩], []⟩, ⟨"B", [], [⟨"libb", none⟩]⟩] ["doesnotexist"]
    (.noProviderFound "doesnotexist") rfl

/-- C4: deterministic provider tie-break.  Whenever a target is not a concrete
package but its provider set is non-empty, `resolve_target` returns exactly one
package, the one named by the head of the sorted provider set, and that head is
lexicographically least among all providers (so never more than one provider is
selected, deterministically); concretely, with providers `B2` and `A2` for `v`,
`A2` is picked. -/
theorem C4_provider_tiebreak :
    (∀ (pkgs : List DatabasePackage) (t q : String) (qs : List String),
      getPackage pkgs t = none → providersOf pkgs t = q :: qs →
      (∃ p, resolve_target pkgs t = .ok p ∧ p.name = q) ∧
      (∀ r ∈ providersOf pkgs t, q = r ∨ strLt q r)) ∧
    resolve_target [⟨"B2", [], [⟨"v", none⟩]⟩, ⟨"A2", [], [⟨"v", none⟩]⟩] "v"
      = .ok ⟨"A2", [], [⟨"v", none⟩]⟩ :=
  ⟨fun _ _ _ _ hg hpr =>
      ⟨resolve_target_provider_choice hg hpr, providersOf_head_min hpr⟩,
    rfl⟩

theorem C4_provider_tiebreak_witness :
    getPackage [⟨"B2", [], [⟨"v", none⟩]⟩, ⟨"A2", [], [⟨"v", none⟩]⟩] "v" = none ∧
    providersOf [⟨"B2", [], [⟨"v", none⟩]⟩, ⟨"A2", [], [⟨"v", none⟩]⟩] "v"
      = "A2" :: ["B2"] ∧
    ((∃ p, resolve_target [⟨"B2", [], [⟨"v", none⟩]⟩, ⟨"A2", [], [⟨"v", none⟩]⟩] "v"
        = .ok p ∧ p.name = "A2") ∧
      (∀ r ∈ providersOf [⟨"B2", [], [⟨"v", none⟩]⟩, ⟨"A2", [], [⟨"v", none⟩]⟩] "v",
        "A2" = r ∨ strLt "A2" r)) :=
  ⟨rfl, rfl,
    C4_provider_tiebreak.1 [⟨"B2", [], [⟨"v", none⟩]⟩, ⟨"A2", [], [⟨"v", none⟩]⟩]
      "v" "A2" ["B2"] rfl rfl⟩

/-- C5 (amended): the bare comparison functions return an `Ordering` for every pair
of input strings that contains no run of ten or more consecutive ASCII digits.  The
original claim — that they never fail for arbitrary content including digit runs of
any length — is false: a digit run whose value exceeds the 32-bit integer maximum
makes the `unwrap` of the digit-run parse panic, modelled as `none` (see the
counterexample theorem). -/
theorem C5_comparisons_total_amended (a b : String)
    (ha : hasLongRun a.data = false) (hb : hasLongRun b.data = false) :
    (compare_version_string a b).isSome ∧ (compare_package_version a b).isSome :=
  ⟨compare_version_string_isSome ha hb, compare_package_version_isSome ha hb⟩

theorem C5_comparisons_total_amended_witness :
    hasLongRun "1.0rc1".data = false ∧ hasLongRun "2:1.0-3".data = false ∧
    ((compare_version_string "1.0rc1" "2:1.0-3").isSome ∧
      (compare_package_version "1.0rc1" "2:1.0-3").isSome) :=
  ⟨by decide, by decide,
    C5_comparisons_total_amended "1.0rc1" "2:1.0-3" (by decide) (by decide)⟩

/-- C5 counterexample: a ten-digit run (value above the 32-bit maximum) makes both
bare comparison functions fail — the modelled `parse::<i32>().unwrap()` panic —
refuting the original claim that they return an `Ordering` for arbitrary digit
runs. -/
theorem C5_counterexample :
    compare_version_string "9999999999" "" = none ∧
    compare_package_version "9999999999:1" "0" = none :=
  ⟨rfl, rfl⟩

/-- C6: version ordering laws.  For all strings `a`, `b`, comparison is
antisymmetric — comparing in the reversed argument order yields the reversed
`Ordering` (at the `Option` level) — and for all `a`, `b`, `c` the induced strict
order is transitive, both for `compare_version_string` and for
`compare_package_version`. -/
theorem C6_total_order :
    (∀ a b : String,
      compare_version_string a b = (compare_version_string b a).map Ordering.swap ∧
      compare_package_version a b = (compare_package_version b a).map Ordering.swap) ∧
    (∀ a b c : String,
      (compare_version_string a b = some .lt → compare_version_string b c = some .lt →
        compare_version_string a c = some .lt) ∧
      (compare_package_version a b = some .lt →
        compare_package_version b c = some .lt →
        compare_package_version a c = some .lt)) :=
  ⟨fun a b => ⟨compare_version_string_swap a b, compare_package_version_swap b a⟩,
    fun _ _ _ => ⟨fun h1 h2 => compare_version_string_trans_lt h1 h2,
      fun h1 h2 => compare_package_version_trans_lt h1 h2⟩⟩

theorem C6_total_order_witness :
    compare_version_string "1.0" "1.1" = some .lt ∧
    compare_version_string "1.1" "1.2" = some .lt ∧
    compare_version_string "1.0" "1.2" = some .lt ∧
    compare_package_version "1.0-1" "1.0-2" = some .lt ∧
    compare_package_version "1.0-2" "1:0" = some .lt ∧
    compare_package_version "1.0-1" "1:0" = some .lt :=
  ⟨by decide, by decide,
    (C6_total_order.2 "1.0" "1.1" "1.2").1 (by decide) (by decide),
    by decide, by decide,
    (C6_total_order.2 "1.0-1" "1.0-2" "1:0").2 (by decide) (by decide)⟩

/-- C7: the package-version comparison is the lexicographic comparison of the
split 3-tuples.  Splitting is epoch-first and an absent epoch is 0; a strictly
larger epoch dominates regardless of pkgver and pkgrel (e.g. `1:0` beats `1`); on
equal epochs the pkgver strings decide via the version-string comparison; on equal
pkgver an absent pkgrel is strictly less than any present one (e.g. `1` is less
than `1-1`), and two present pkgrels decide via the version-string comparison. -/
theorem C7_epoch_dominance_tuple :
    (∀ (a b : String) (pa pb : VersionParts),
      split_parts a.data = some pa → split_parts b.data = some pb →
      compare_package_version a b = cmpVersionParts pa pb) ∧
    (∀ x y : VersionParts, y.epoch < x.epoch → cmpVersionParts x y = some .gt) ∧
    compare_package_version "1:0" "1" = some .gt ∧
    split_parts "1".data = some ⟨0, "1".data, none⟩ ∧
    (∀ (x y : VersionParts) (o : Ordering), x.epoch = y.epoch → o ≠ .eq →
      cmpVersionChars (x.pkgver.length + y.pkgver.length + 1) x.pkgver y.pkgver
        = some o →
      cmpVersionParts x y = some o) ∧
    (∀ (x y : VersionParts) (r : List Char), x.epoch = y.epoch →
      cmpVersionChars (x.pkgver.length + y.pkgver.length + 1) x.pkgver y.pkgver
        = some .eq →
      x.pkgrel = none → y.pkgrel = some r → cmpVersionParts x y = some .lt) ∧
    (∀ (x y : VersionParts) (rx ry : List Char), x.epoch = y.epoch →
      cmpVersionChars (x.pkgver.length + y.pkgver.length + 1) x.pkgver y.pkgver
        = some .eq →
      x.pkgrel = some rx → y.pkgrel = some ry →
      cmpVersionParts x y = cmpVersionChars (rx.length + ry.length + 1) rx ry) ∧
    compare_package_version "1" "1-1" = some .lt :=
  ⟨fun _ _ _ _ hpa hpb => compare_package_version_tuple hpa hpb,
    fun _ _ h => cmpVersionParts_epoch_gt h,
    rfl, rfl,
    fun _ _ _ he ho h => cmpVersionParts_pkgver he ho h,
    fun _ _ _ he hv hx hy => cmpVersionParts_pkgrel_none_lt he hv hx hy,
    fun _ _ _ _ he hv hx hy => cmpVersionParts_pkgrel_both he hv hx hy,
    rfl⟩

theorem C7_epoch_dominance_tuple_witness :
    split_parts "1:0".data = some ⟨1, "0".data, none⟩ ∧
    compare_package_version "1:0" "1" = cmpVersionParts ⟨1, "0".data, none⟩ ⟨0, "1".data, none⟩ ∧
    cmpVersionParts ⟨1, "0".data, none⟩ ⟨0, "1".data, none⟩ = some .gt ∧
    cmpVersionParts ⟨0, "2".data, none⟩ ⟨0, "1".data, none⟩ = some .gt ∧
    cmpVersionParts ⟨0, "1".data, none⟩ ⟨0, "1".data, some "1".data⟩ = some .lt ∧
    cmpVersionParts ⟨0, "1".data, some "2".data⟩ ⟨0, "1".data, some "3".data⟩
      = cmpVersionChars ("2".data.length + "3".data.length + 1) "2".data "3".data :=
  ⟨rfl,
    C7_epoch_dominance_tuple.1 "1:0" "1" ⟨1, "0".data, none⟩ ⟨0, "1".data, none⟩
      rfl rfl,
    C7_epoch_dominance_tuple.2.1 ⟨1, "0".data, none⟩ ⟨0, "1".data, none⟩ (by decide),
    C7_epoch_dominance_tuple.2.2.2.2.1 ⟨0, "2".data, none⟩ ⟨0, "1".data, none⟩
      .gt rfl (by decide) (by decide),
    C7_epoch_dominance_tuple.2.2.2.2.2.1 ⟨0, "1".data, none⟩
      ⟨0, "1".data, some "1".data⟩ "1".data rfl (by decide) rfl rfl,
    C7_epoch_dominance_tuple.2.2.2.2.2.2.1 ⟨0, "1".data, some "2".data⟩
      ⟨0, "1".data, some "3".data⟩ "2".data "3".data rfl (by decide) rfl rfl⟩

/-- C8: dependency token parsing.  `parse_depends "foo>=1.2-3"` yields the name
`foo` and a constraint with operator greater-or-equal and version
`(epoch 0, pkgver "1.2", pkgrel "3")`; the operator is matched at the first
constraint character with the two-character operators taking priority, so a
`>=` or `<=` is never mis-parsed as `>` or `<` followed by `=`; and a token
without any constraint character yields no version constraint at all. -/
theorem C8_parse_dependency :
    parse_depends "foo>=1.2-3"
      = ("foo", some ⟨⟨0, "1.2", some "3"⟩, .greaterEqual⟩) ∧
    (∀ rest : List Char,
      parse_constraint ('>' :: '=' :: rest) = some (.greaterEqual, rest) ∧
      parse_constraint ('<' :: '=' :: rest) = some (.lessEqual, rest) ∧
      parse_constraint ('=' :: '=' :: rest) = some (.equal, rest)) ∧
    (∀ (c : Char) (rest : List Char), c ≠ '=' →
      parse_constraint ('>' :: c :: rest) = some (.greater, c :: rest) ∧
      parse_constraint ('<' :: c :: rest) = some (.less, c :: rest) ∧
      parse_constraint ('=' :: c :: rest) = some (.equal, c :: rest)) ∧
    (∀ blob : String, blob.data.all (fun c => !is_constraint_char c) = true →
      parse_depends blob = (blob, none)) :=
  ⟨rfl,
    fun rest => ⟨parse_constraint_ge rest, parse_constraint_le rest,
      parse_constraint_eqeq rest⟩,
    fun _ rest h => ⟨parse_constraint_gt rest h, parse_constraint_lt rest h,
      parse_constraint_eq rest h⟩,
    fun _ h => parse_depends_no_constraint h⟩

theorem C8_parse_dependency_witness :
    ('1' : Char) ≠ '=' ∧
    (parse_constraint ('>' :: '1' :: ['a']) = some (.greater, '1' :: ['a']) ∧
      parse_constraint ('<' :: '1' :: ['a']) = some (.less, '1' :: ['a']) ∧
      parse_constraint ('=' :: '1' :: ['a']) = some (.equal, '1' :: ['a'])) ∧
    ("foo" : String).data.all (fun c => !is_constraint_char c) = true ∧
    parse_depends "foo" = ("foo", none) :=
  ⟨by decide, C8_parse_dependency.2.2.1 '1' ['a'] (by decide), by decide,
    C8_parse_dependency.2.2.2 "foo" (by decide)⟩

/-- C9 (amended): the result of `resolve` is invariant under permuting the list of
requested targets.  The original claim — that the final selected set is independent
of the order in which pending targets are popped from the queue — is false: the
drain order decides which provider of a virtual target is reached first and can
change the final set (see the counterexample theorem). -/
theorem C9_request_order_perm (pkgs : List DatabasePackage) (t₁ t₂ : List String)
    (hp : t₁.Perm t₂) : resolve pkgs t₁ = resolve pkgs t₂ :=
  resolve_perm hp

theorem C9_request_order_perm_witness :
    resolve [⟨"A", [⟨"B", none⟩], []⟩, ⟨"B", [], [⟨"libb", none⟩]⟩] ["x", "libb"]
      = resolve [⟨"A", [⟨"B", none⟩], []⟩, ⟨"B", [], [⟨"libb", none⟩]⟩] ["libb", "x"] :=
  C9_request_order_perm [⟨"A", [⟨"B", none⟩], []⟩, ⟨"B", [], [⟨"libb", none⟩]⟩]
    ["x", "libb"] ["libb", "x"] (List.Perm.swap "libb" "x" [])

/-- C9 counterexample: the final selected set depends on the drain order of the
pending-target queue.  With packages `A` and `B` both providing `v` and a package
`C` depending on `v` and `B`, the resolver's own order (pop `B` before `v`) selects
only `B` and `C` because `B` already provides `v`, while popping `v` first selects
`A` as well — two drain orders over the same inputs, different result sets.  The
rank-0 drain order coincides with the lexicographic-minimum order of `resolve`,
whose result on this index is also recorded. -/
theorem C9_counterexample :
    resolveBy (fun _ => 0)
        [⟨"A", [], [⟨"v", none⟩]⟩, ⟨"B", [], [⟨"v", none⟩]⟩,
          ⟨"C", [⟨"v", none⟩, ⟨"B", none⟩], []⟩] ["C"]
      = some (.ok ["B", "C"]) ∧
    resolveBy (fun s => if s = "v" then 0 else 1)
        [⟨"A", [], [⟨"v", none⟩]⟩, ⟨"B", [], [⟨"v", none⟩]⟩,
          ⟨"C", [⟨"v", none⟩, ⟨"B", none⟩], []⟩] ["C"]
      = some (.ok ["A", "B", "C"]) ∧
    resolve
        [⟨"A", [], [⟨"v", none⟩]⟩, ⟨"B", [], [⟨"v", none⟩]⟩,
          ⟨"C", [⟨"v", none⟩, ⟨"B", none⟩], []⟩] ["C"]
      = some (.ok ["B", "C"]) :=
  ⟨rfl, rfl, rfl⟩

/-- C10: every package name in a successful result set is a key of the packages
name index — its lookup with `getPackage` succeeds — so a caller that looks each
returned name up in the same index (as `download_packages` does, unchecked) can
never hit an unknown package. -/
theorem C10_selected_in_index (pkgs : List DatabasePackage) (targets sel : List String)
    (h : resolve pkgs targets = some (.ok sel)) :
    ∀ n ∈ sel, (getPackage pkgs n).isSome :=
  resolve_ok_selected h

theorem C10_selected_in_index_witness :
    resolve [⟨"A", [⟨"B", none⟩], []⟩, ⟨"B", [], [⟨"libb", none⟩]⟩] ["A"]
        = some (.ok ["A", "B"]) ∧
    "B" ∈ ["A", "B"] ∧
    (getPackage [⟨"A", [⟨"B", none⟩], []⟩, ⟨"B", [], [⟨"libb", none⟩]⟩] "B").isSome :=
  ⟨rfl, by decide,
    C10_selected_in_index [⟨"A", [⟨"B", none⟩], []⟩, ⟨"B", [], [⟨"libb", none⟩]⟩]
      ["A"] ["A", "B"] rfl "B" (by decide)⟩

end Pacman
